import Mathlib

/-! # clickhousedump: a shallow embedding of the backup program and its properties

The program (`main.go`, and the nested variant `src/clickhousedump/main.go`)
talks to two things outside itself: a database connection and the filesystem.
Both are modelled explicitly.

* The filesystem is a finite tree of directories and files (`Node`).  The
  calls the program makes (`os.Stat`, `os.Mkdir`, `os.MkdirAll`,
  `ioutil.ReadDir`, `ioutil.ReadFile`, `ioutil.WriteFile`) are functions on
  that tree which fail with the errno the real call reports.  Permission bits,
  symbolic links and failures that do not come from the shape of the tree
  (full disk, access rights) are not modelled.
* The connection is an oracle (`Conn`) that answers each statement; its
  answers may depend on everything that happened before.
* Every call on either of them, every log line and every line printed is
  appended to a trace (`World.trace`), so that "no statement is executed" or
  "the statement comes before the copy" are statements about that trace.
* A Go function that returns `error` returns `Outcome (Option GoError)`:
  besides returning, the function may end the process (`log.Fatal*`), and the
  recursive directory copy, which recurses on what it finds on disk, takes a
  fuel argument and may run out of it.
-/

namespace ClickhouseDump

/-! ## Go values -/

/-- The errno values the modelled filesystem calls can report. -/
inductive Errno where
  | ENOENT
  | EEXIST
  | ENOTDIR
  | EISDIR
  deriving DecidableEq, Repr

/-- A Go `error` value. -/
inductive GoError where
  /-- An `*os.PathError`: the operation, the path as passed, and the errno. -/
  | path (op : String) (path : String) (errno : Errno)
  /-- An error reported by the database driver. -/
  | driver (msg : String)
  /-- A `*clickhouse.Exception`. -/
  | exception (code : Int) (message : String) (stackTrace : String)
  deriving DecidableEq, Repr

/-- The function `os.IsNotExist`. -/
def osIsNotExist : GoError → Bool
  | .path _ _ .ENOENT => true
  | _ => false

/-- The four loggers set up by `Init`. -/
inductive Level where
  | Trace
  | Info
  | Warning
  | Error
  deriving DecidableEq, Repr

/-- An operand of a logging call. -/
inductive Arg where
  | str (s : String)
  | err (e : GoError)
  | int (i : Int)
  deriving DecidableEq, Repr

/-- One observable action of the process. -/
inductive Event where
  /-- The call `sqlx.Open("clickhouse", dsn)`. -/
  | dial (dsn : String)
  /-- The call `Ping()`. -/
  | ping
  /-- The deferred `Close()`. -/
  | close
  /-- A `Select(&dest, query)` on the connection. -/
  | select (query : String)
  /-- An `Exec(statement)` on the connection. -/
  | exec (statement : String)
  | stat (path : String)
  | mkdir (path : String)
  | mkdirAll (path : String)
  | readDir (path : String)
  | readFile (path : String)
  | writeFile (path : String) (data : List UInt8)
  /-- A `Printf`/`Fatalf` on one of the loggers: format and operands. -/
  | logf (level : Level) (format : String) (args : List Arg)
  /-- A `Println`/`Fatalln` on one of the loggers. -/
  | logln (level : Level) (args : List Arg)
  /-- A `fmt.Println` on standard output. -/
  | println (line : String)
  /-- The call `os.Exit(code)` made by `log.Fatal*`. -/
  | exit (code : Nat)
  deriving DecidableEq, Repr

/-- Whether the event is a statement sent over the connection. -/
def Event.isStatement : Event → Bool
  | .select _ => true
  | .exec _ => true
  | _ => false

/-- Whether the event is an `Exec` on the connection. -/
def Event.isExec : Event → Bool
  | .exec _ => true
  | _ => false

/-- Whether the event is a call on the filesystem. -/
def Event.isFilesystem : Event → Bool
  | .stat _ => true
  | .mkdir _ => true
  | .mkdirAll _ => true
  | .readDir _ => true
  | .readFile _ => true
  | .writeFile _ _ => true
  | _ => false

/-- How a call of a Go function ends. -/
inductive Outcome (α : Type) where
  /-- The function returned `value` to its caller. -/
  | ret (value : α)
  /-- The process was ended by `os.Exit` inside the call. -/
  | fatal
  /-- The model ran out of fuel: the call did not finish within the bound. -/
  | unfinished
  deriving DecidableEq, Repr

/-! ## Formatting -/

/-- Expansion of the `%v` verbs of a format over string operands, left to
right; any other character is copied. -/
def sprintfChars : List Char → List String → List Char
  | [], _ => []
  | [c], _ => [c]
  | c :: d :: cs, args =>
    if c = '%' ∧ d = 'v' then
      match args with
      | a :: rest => a.data ++ sprintfChars cs rest
      | [] => "%!v(MISSING)".data ++ sprintfChars cs []
    else c :: sprintfChars (d :: cs) args

/-- The call `fmt.Sprintf(format, args...)` for string operands and `%v`. -/
def Sprintf (format : String) (args : List String) : String :=
  String.mk (sprintfChars format.data args)

/-- The call `strings.HasPrefix(s, p)`. -/
def stringsHasPrefix (s p : String) : Bool :=
  p.data.isPrefixOf s.data

/-! ## Paths -/

/-- A resolved path: the names from the root down. -/
abbrev Path := List String

/-- The pieces of a path string between its slashes. -/
def splitSlash : List Char → List (List Char)
  | [] => [[]]
  | c :: cs =>
    if c = '/' then [] :: splitSlash cs
    else
      match splitSlash cs with
      | [] => [[c]]
      | h :: t => (c :: h) :: t

/-- One step of path resolution: an empty piece and `.` stay where they are,
`..` goes up (and stays at the root), a name goes down. -/
def pathStep (stack : Path) (piece : String) : Path :=
  if piece = "" ∨ piece = "." then stack
  else if piece = ".." then stack.dropLast
  else stack ++ [piece]

/-- The names a path string leads through.  The working directory of the
process is taken to be the root of the modelled tree, so a leading slash
changes nothing. -/
def components (s : String) : Path :=
  ((splitSlash s.data).map String.mk).foldl pathStep []

/-- Resolution of a path string as the operating system does it; the empty
string names nothing (`ENOENT`). -/
def resolve (s : String) : Option Path :=
  if s = "" then none else some (components s)

/-- The call `path.Join(dir, name)` for a non-empty `dir`: the two joined by a
slash.  `path.Join` also cleans the result; cleaning does not change what the
path resolves to and is left out. -/
def pathJoin (dir name : String) : String :=
  dir ++ "/" ++ name

/-- A name that a directory entry can have. -/
def validName (n : String) : Bool :=
  n ≠ "" ∧ n ≠ "." ∧ n ≠ ".." ∧ '/' ∉ n.data

/-! ## The filesystem -/

/-- A file with its bytes, or a directory with its entries in listing order. -/
inductive Node where
  | file (data : List UInt8)
  | dir (entries : List (String × Node))

/-- The entry called `c`, if there is one. -/
def lookupEntry (c : String) : List (String × Node) → Option Node
  | [] => none
  | (k, v) :: es => if k = c then some v else lookupEntry c es

/-- The entries with the entry called `c` replaced by `n`. -/
def replaceEntry (c : String) (n : Node) : List (String × Node) → List (String × Node)
  | [] => []
  | (k, v) :: es => if k = c then (k, n) :: es else (k, v) :: replaceEntry c n es

/-- Whether the node is a directory (`FileInfo.IsDir`). -/
def Node.isDir : Node → Bool
  | .dir _ => true
  | .file _ => false

/-- The node at a path below `n`, if the path leads to one. -/
def Node.get : Node → Path → Option Node
  | n, [] => some n
  | .file _, _ :: _ => none
  | .dir es, c :: rest =>
    match lookupEntry c es with
    | some n => n.get rest
    | none => none

/-- The errno of a lookup that found nothing: `ENOTDIR` when the path runs
through a file, `ENOENT` when a name is missing. -/
def Node.errnoAt : Node → Path → Errno
  | _, [] => .ENOENT
  | .file _, _ :: _ => .ENOTDIR
  | .dir es, c :: rest =>
    match lookupEntry c es with
    | some n => n.errnoAt rest
    | none => .ENOENT

/-- Put `x` at path `p`: replaces what is there, or adds a new last entry to
the parent directory.  Fails when the parent is not an existing directory. -/
def Node.set : Node → Path → Node → Option Node
  | _, [], x => some x
  | .file _, _ :: _, _ => none
  | .dir es, c :: rest, x =>
    match lookupEntry c es with
    | some n => (n.set rest x).map (fun m => .dir (replaceEntry c m es))
    | none =>
      match rest with
      | [] => some (.dir (es ++ [(c, x)]))
      | _ :: _ => none

/-- The tree after `os.MkdirAll(p)`: every missing directory on the way is
created; fails (`ENOTDIR`) when the path runs into a file. -/
def Node.mkdirAll : Node → Path → Option Node
  | .file _, _ => none
  | .dir es, [] => some (.dir es)
  | .dir es, c :: rest =>
    match lookupEntry c es with
    | some n => (n.mkdirAll rest).map (fun m => .dir (replaceEntry c m es))
    | none => ((Node.dir []).mkdirAll rest).map (fun m => .dir (es ++ [(c, m)]))

/-- The tree after `os.Mkdir(p)`. -/
def Node.mkdir (fs : Node) (p : Path) : Except Errno Node :=
  match fs.get p with
  | some _ => .error .EEXIST
  | none =>
    match fs.set p (.dir []) with
    | some fs1 => .ok fs1
    | none => .error (fs.errnoAt p)

/-- The tree after `ioutil.WriteFile(p, data)`: the file is created or
truncated and rewritten. -/
def Node.writeFile (fs : Node) (p : Path) (data : List UInt8) : Except Errno Node :=
  match fs.get p with
  | some (.dir _) => .error .EISDIR
  | _ =>
    match fs.set p (.file data) with
    | some fs1 => .ok fs1
    | none => .error (fs.errnoAt p)

/-- The state of everything outside the program: the filesystem, and the
trace of what the process has done so far (oldest first). -/
structure World where
  fs : Node
  trace : List Event

/-- Append one event to the trace. -/
def World.emit (w : World) (e : Event) : World :=
  { w with trace := w.trace ++ [e] }

/-- The call `os.Stat(path)`. -/
def osStat (path : String) (w : World) : Except GoError Node × World :=
  let w1 := w.emit (.stat path)
  match resolve path with
  | none => (.error (.path "stat" path .ENOENT), w1)
  | some p =>
    match w1.fs.get p with
    | some n => (.ok n, w1)
    | none => (.error (.path "stat" path (w1.fs.errnoAt p)), w1)

/-- The call `os.Mkdir(path, perm)`. -/
def osMkdir (path : String) (w : World) : Option GoError × World :=
  let w1 := w.emit (.mkdir path)
  match resolve path with
  | none => (some (.path "mkdir" path .ENOENT), w1)
  | some p =>
    match w1.fs.mkdir p with
    | .ok fs1 => (none, { w1 with fs := fs1 })
    | .error e => (some (.path "mkdir" path e), w1)

/-- The call `os.MkdirAll(path, perm)`.  The error names the path passed; the
real call names the ancestor that turned out to be a file. -/
def osMkdirAll (path : String) (w : World) : Option GoError × World :=
  let w1 := w.emit (.mkdirAll path)
  match resolve path with
  | none => (some (.path "mkdir" path .ENOENT), w1)
  | some p =>
    match w1.fs.mkdirAll p with
    | some fs1 => (none, { w1 with fs := fs1 })
    | none => (some (.path "mkdir" path .ENOTDIR), w1)

/-- The call `ioutil.ReadDir(path)`: the entries as (name, is a directory).
The real call sorts them by name; here they come in the order the directory
holds them (the order of creation), which only decides which entry is copied
first. -/
def ioutilReadDir (path : String) (w : World) : Except GoError (List (String × Bool)) × World :=
  let w1 := w.emit (.readDir path)
  match resolve path with
  | none => (.error (.path "open" path .ENOENT), w1)
  | some p =>
    match w1.fs.get p with
    | some (.dir es) => (.ok (es.map (fun e => (e.1, e.2.isDir))), w1)
    | some (.file _) => (.error (.path "readdirent" path .ENOTDIR), w1)
    | none => (.error (.path "open" path (w1.fs.errnoAt p)), w1)

/-- The call `ioutil.ReadFile(path)`. -/
def ioutilReadFile (path : String) (w : World) : Except GoError (List UInt8) × World :=
  let w1 := w.emit (.readFile path)
  match resolve path with
  | none => (.error (.path "open" path .ENOENT), w1)
  | some p =>
    match w1.fs.get p with
    | some (.file data) => (.ok data, w1)
    | some (.dir _) => (.error (.path "read" path .EISDIR), w1)
    | none => (.error (.path "open" path (w1.fs.errnoAt p)), w1)

/-- The call `ioutil.WriteFile(path, data, 0644)`. -/
def ioutilWriteFile (path : String) (data : List UInt8) (w : World) : Option GoError × World :=
  let w1 := w.emit (.writeFile path data)
  match resolve path with
  | none => (some (.path "open" path .ENOENT), w1)
  | some p =>
    match w1.fs.writeFile p data with
    | .ok fs1 => (none, { w1 with fs := fs1 })
    | .error e => (some (.path "open" path e), w1)

/-- The call `logger.Fatalf(format, args...)`: the line is written and the
process exits with status 1. -/
def logFatalf (level : Level) (format : String) (args : List Arg) (w : World) : World :=
  (w.emit (.logf level format args)).emit (.exit 1)

/-- The call `logger.Fatalln(args...)`. -/
def logFatalln (level : Level) (args : List Arg) (w : World) : World :=
  (w.emit (.logln level args)).emit (.exit 1)

/-! ## The database connection -/

/-- A row of the partition query: the anonymous struct `GetPartitions.Run`
selects into. -/
structure partitionRow where
  Partition : String
  Table : String
  Database : String
  deriving DecidableEq, Repr

/-- The server behind `*sqlx.DB`: what it answers to each call, given the
trace so far. -/
structure Conn where
  /-- The result of `sqlx.Open("clickhouse", dsn)`. -/
  dial : String → Option GoError
  /-- The result of `Ping()`. -/
  ping : List Event → Option GoError
  /-- The result of `Exec(statement)`. -/
  exec : List Event → String → Option GoError
  /-- The result of `Select` into a slice of `struct{DatabaseName}`. -/
  selectNames : List Event → String → Except GoError (List String)
  /-- The result of `Select` into a slice of partition rows. -/
  selectPartitions : List Event → String → Except GoError (List partitionRow)

/-- The call `databaseConnection.Exec(statement)`. -/
def dbExec (conn : Conn) (statement : String) (w : World) : Option GoError × World :=
  (conn.exec w.trace statement, w.emit (.exec statement))

/-- The call `databaseConnection.Select(&databases, query)`. -/
def dbSelectNames (conn : Conn) (query : String) (w : World) :
    Except GoError (List String) × World :=
  (conn.selectNames w.trace query, w.emit (.select query))

/-- The call `databaseConnection.Select(&partitions, query)`. -/
def dbSelectPartitions (conn : Conn) (query : String) (w : World) :
    Except GoError (List partitionRow) × World :=
  (conn.selectPartitions w.trace query, w.emit (.select query))

/-! ## The program: `main.go` -/

/-- The package-level variables read by `FreezePartitions.Run`. -/
structure Globals where
  NoFreezeFlag : Bool
  SourceDirectory : String
  DestinationDirectory : String

structure partitionDescribe where
  databaseName : String
  tableName : String
  partID : String
  deriving DecidableEq, Repr

structure dataBase where
  name : String
  deriving DecidableEq, Repr

structure GetPartitions where
  Database : String
  Result : List partitionDescribe
  deriving DecidableEq, Repr

structure FreezePartitions where
  Partitions : List partitionDescribe
  deriving DecidableEq, Repr

structure GetDatabasesList where
  Result : List dataBase
  deriving DecidableEq, Repr

/-- The function `copyFile`. -/
def copyFile (sourceFile destinationFile : String) (w : World) :
    Outcome (Option GoError) × World :=
  match ioutilReadFile sourceFile w with
  | (.error _, w1) =>
    (.fatal, logFatalf .Error "cant't open file: %v" [.str sourceFile] w1)
  | (.ok input, w1) =>
    match ioutilWriteFile destinationFile input w1 with
    | (some _, w2) =>
      (.fatal, logFatalf .Error "cant'r create: %v" [.str destinationFile] w2)
    | (none, w2) => (.ret none, w2)

/-- The loop of `copyDirectory` over the entries of the source directory;
`recurse` is `copyDirectory` itself. -/
def copyEntries (recurse : String → String → World → Outcome (Option GoError) × World)
    (sourceDirectory destinationDirectory : String) :
    List (String × Bool) → World → Outcome (Option GoError) × World
  | [], w => (.ret none, w)
  | fileDescriptor :: rest, w =>
    let sourcePath := pathJoin sourceDirectory fileDescriptor.1
    let destinationPath := pathJoin destinationDirectory fileDescriptor.1
    if fileDescriptor.2 then
      match recurse sourcePath destinationPath w with
      | (.ret none, w1) => copyEntries recurse sourceDirectory destinationDirectory rest w1
      | (.ret (some err), w1) => (.fatal, logFatalln .Error [.err err] w1)
      | (.fatal, w1) => (.fatal, w1)
      | (.unfinished, w1) => (.unfinished, w1)
    else
      match copyFile sourcePath destinationPath w with
      | (.ret none, w1) => copyEntries recurse sourceDirectory destinationDirectory rest w1
      | (.ret (some err), w1) => (.fatal, logFatalln .Error [.err err] w1)
      | (.fatal, w1) => (.fatal, w1)
      | (.unfinished, w1) => (.unfinished, w1)

/-- The function `copyDirectory`; `fuel` bounds the depth of the recursion. -/
def copyDirectory : Nat → String → String → World → Outcome (Option GoError) × World
  | 0, _, _, w => (.unfinished, w)
  | fuel + 1, sourceDirectory, destinationDirectory, w =>
    match osStat sourceDirectory w with
    | (.error err, w1) => (.ret (some err), w1)
    | (.ok _, w1) =>
      match osMkdirAll destinationDirectory w1 with
      | (some err, w2) => (.ret (some err), w2)
      | (none, w2) =>
        match ioutilReadDir sourceDirectory w2 with
        | (.error err, w3) => (.ret (some err), w3)
        | (.ok fileDescriptors, w3) =>
          copyEntries (copyDirectory fuel) sourceDirectory destinationDirectory
            fileDescriptors w3

/-- The function `createDirectories`. -/
def createDirectories : List String → World → (Option GoError × String) × World
  | [], w => ((none, ""), w)
  | currentDirectory :: rest, w =>
    match osMkdir currentDirectory w with
    | (some err, w1) => ((some err, currentDirectory), w1)
    | (none, w1) => createDirectories rest w1

/-- The function `isDirectoryExist`. -/
def isDirectoryExist : List String → World → (Option GoError × String) × World
  | [], w => ((none, ""), w)
  | currentDirectory :: rest, w =>
    match osStat currentDirectory w with
    | (.error err, w1) =>
      if osIsNotExist err then ((some err, currentDirectory), w1)
      else isDirectoryExist rest w1
    | (.ok _, w1) => isDirectoryExist rest w1

/-- The statement text: `fmt.Sprintf("ALTER TABLE %v.%v FREEZE PARTITION '%v';", ...)`. -/
def freezeStatement (partition : partitionDescribe) : String :=
  Sprintf "ALTER TABLE %v.%v FREEZE PARTITION '%v';"
    [partition.databaseName, partition.tableName, partition.partID]

/-- The value of `directoryList` in `FreezePartitions.Run`. -/
def directoryList (outDirectory : String) (partition : partitionDescribe) : List String :=
  [ outDirectory ++ "/partitions",
    outDirectory ++ "/partitions/" ++ partition.databaseName,
    outDirectory ++ "/metadata",
    outDirectory ++ "/metadata/" ++ partition.databaseName ]

/-- The body of the loop of `FreezePartitions.Run` for one partition.
Returning `nil` here stands for reaching the end of the body: the loop goes on
with the next partition. -/
def freezeOne (g : Globals) (conn : Conn) (fuel : Nat) (partition : partitionDescribe)
    (w : World) : Outcome (Option GoError) × World :=
  if g.NoFreezeFlag then
    (.ret none, w.emit (.logf .Info "ALTER TABLE %v.%v FREEZE PARTITION '%v';"
      [.str partition.databaseName, .str partition.tableName, .str partition.partID]))
  else
    match dbExec conn (freezeStatement partition) w with
    | (some err, w1) => (.ret (some err), w1)
    | (none, w1) =>
      let outDirectory := g.SourceDirectory
      let inDirectory := g.DestinationDirectory
      match createDirectories (directoryList outDirectory partition) w1 with
      | ((some err, failDirectory), w2) =>
        (.ret (some err), w2.emit (.logf .Error "can't create directory: %v" [.str failDirectory]))
      | ((none, _), w2) =>
        match copyDirectory fuel
            (inDirectory ++ "/shadow/1/data/" ++ partition.databaseName)
            (outDirectory ++ "/partitions/" ++ partition.databaseName) w2 with
        | (.ret none, w3) =>
          copyDirectory fuel
            (inDirectory ++ "/metadata/" ++ partition.databaseName)
            (outDirectory ++ "/metadata/" ++ partition.databaseName) w3
        | (o, w3) => (o, w3)

/-- The loop of `FreezePartitions.Run` over the partitions. -/
def freezeEach (g : Globals) (conn : Conn) (fuel : Nat) :
    List partitionDescribe → World → Outcome (Option GoError) × World
  | [], w => (.ret none, w)
  | partition :: rest, w =>
    match freezeOne g conn fuel partition w with
    | (.ret none, w1) => freezeEach g conn fuel rest w1
    | (o, w1) => (o, w1)

/-- The method `FreezePartitions.Run`. -/
def FreezePartitions.Run (fz : FreezePartitions) (g : Globals) (conn : Conn) (fuel : Nat)
    (w : World) : Outcome (Option GoError) × World :=
  freezeEach g conn fuel fz.Partitions w

/-- The method `GetDatabasesList.Run`: the error, and the receiver afterwards. -/
def GetDatabasesList.Run (gd : GetDatabasesList) (conn : Conn) (w : World) :
    (Option GoError × GetDatabasesList) × World :=
  match dbSelectNames conn "show databases;" w with
  | (.error err, w1) => ((some err, gd), w1)
  | (.ok databases, w1) =>
    ((none, databases.foldl (fun (acc : GetDatabasesList) item =>
        { acc with Result := acc.Result ++ [{ name := item }] }) gd), w1)

/-- The text of the partition query of `GetPartitions.Run`. -/
def partitionQuery (database : String) : String :=
  Sprintf ("select " ++ "partition, " ++ "table, " ++ "database " ++
    "FROM system.parts WHERE active AND database ='%v';") [database]

/-- The loop of `GetPartitions.Run` over the rows selected: the receiver and
the world after the rows. -/
def collectPartitions : List partitionRow → GetPartitions → World → GetPartitions × World
  | [], gp, w => (gp, w)
  | item :: rest, gp, w =>
    if !stringsHasPrefix item.Table "." then
      collectPartitions rest
        { gp with Result := gp.Result ++ [{ partID := item.Partition,
                                             tableName := item.Table,
                                             databaseName := item.Database }] }
        (w.emit (.logf .Info "found %v partition of %v table in %v database"
          [.str item.Partition, .str item.Table, .str item.Database]))
    else collectPartitions rest gp w

/-- The method `GetPartitions.Run`: the error, and the receiver afterwards. -/
def GetPartitions.Run (gp : GetPartitions) (conn : Conn) (w : World) :
    (Option GoError × GetPartitions) × World :=
  match dbSelectPartitions conn (partitionQuery gp.Database) w with
  | (.error err, w1) => ((some err, gp), w1)
  | (.ok partitions, w1) =>
    match collectPartitions partitions gp w1 with
    | (gp1, w2) => ((none, gp1), w2)

/-- The command-line flags after `flag.Parse()`. -/
structure Flags where
  argBackup : Bool
  argRestore : Bool
  argHost : String
  argDataBase : String
  argDebugOn : Bool
  argPort : String
  argNoFreeze : Bool
  argInDirectory : String
  argOutDirectory : String

/-- The flags when nothing is given on the command line. -/
def Flags.defaults : Flags :=
  { argBackup := false, argRestore := false, argHost := "127.0.0.1", argDataBase := "",
    argDebugOn := false, argPort := "9000", argNoFreeze := false, argInDirectory := "",
    argOutDirectory := "" }

/-- The value of `ClickhouseConnectionString`. -/
def ClickhouseConnectionString (args : Flags) : String :=
  let s := "tcp://" ++ args.argHost ++ ":" ++ args.argPort ++ "?username=&compress=true"
  if args.argDebugOn then s ++ "&debug=true" else s

/-- The end of `main`: the last line is printed and the deferred `Close` runs. -/
def mainDone (w : World) : Outcome Unit × World :=
  (.ret (), (w.emit (.println "done")).emit .close)

/-- The loop of `main` over the databases when no `-db` is given.  The second
argument is the variable `partitionsList`. -/
def mainDatabasesLoop (conn : Conn) :
    List dataBase → List partitionDescribe → World → List partitionDescribe × World
  | [], partitionsList, w => (partitionsList, w)
  | database :: rest, _, w =>
    match GetPartitions.Run { Database := database.name, Result := [] } conn w with
    | ((some err, cmdGetPartitionsList), w1) =>
      mainDatabasesLoop conn rest cmdGetPartitionsList.Result
        (w1.emit (.logf .Error "can't get partition list, %v" [.err err]))
    | ((none, cmdGetPartitionsList), w1) =>
      mainDatabasesLoop conn rest cmdGetPartitionsList.Result w1

/-- The part of `main` that fills `partitionsList` (the partitions handed to
`FreezePartitions`). -/
def mainPartitionsList (conn : Conn) (args : Flags) (w : World) :
    List partitionDescribe × World :=
  if args.argDataBase = "" then
    match GetDatabasesList.Run { Result := [] } conn w with
    | ((some err, databaseList), w1) =>
      mainDatabasesLoop conn databaseList.Result []
        (w1.emit (.logf .Error "can't get database list, %v" [.err err]))
    | ((none, databaseList), w1) => mainDatabasesLoop conn databaseList.Result [] w1
  else
    match GetPartitions.Run { Database := args.argDataBase, Result := [] } conn w with
    | ((some err, cmdGetPartitionsList), w1) =>
      (cmdGetPartitionsList.Result,
        w1.emit (.logf .Error "can't get partition list, %v" [.err err]))
    | ((none, cmdGetPartitionsList), w1) => (cmdGetPartitionsList.Result, w1)

/-- The backup branch of `main`. -/
def mainBackup (g : Globals) (conn : Conn) (fuel : Nat) (args : Flags) (w : World) :
    Outcome Unit × World :=
  let w1 := w.emit (.logln .Info [.str "Run in backup mode"])
  let inputDirectory :=
    if args.argInDirectory = "" then "/var/lib/clickhouse" else args.argInDirectory
  if args.argOutDirectory = "" then
    (.fatal, logFatalln .Error [.str "please set destination directory"] w1)
  else
    let outputDirectory := args.argOutDirectory
    match isDirectoryExist [inputDirectory, outputDirectory] w1 with
    | ((some _, noDirectory), w2) =>
      (.fatal, logFatalf .Error "v% not found" [.str noDirectory] w2)
    | ((none, _), w2) =>
      match mainPartitionsList conn args w2 with
      | (partitionsList, w3) =>
        match FreezePartitions.Run { Partitions := partitionsList } g conn fuel w3 with
        | (.ret none, w4) => mainDone w4
        | (.ret (some err), w4) =>
          mainDone (w4.emit (.logf .Error "can't freeze partition, %v" [.err err]))
        | (.fatal, w4) => (.fatal, w4)
        | (.unfinished, w4) => (.unfinished, w4)

/-- The mode dispatch of `main`, reached once the connection answers. -/
def mainDispatch (g : Globals) (conn : Conn) (fuel : Nat) (args : Flags) (w : World) :
    Outcome Unit × World :=
  if args.argBackup && !args.argRestore then
    mainBackup g conn fuel args w
  else if args.argRestore && !args.argBackup then
    mainDone (w.emit (.println "Run in restore mode"))
  else if !args.argRestore && !args.argBackup then
    mainDone (w.emit (.println "Choose mode (restore tor backup)"))
  else
    (.fatal, logFatalln .Error [.str "Run in only one mode (backup or restore)"] w)

/-- The function `main` of `main.go`.  `SourceDirectory` and
`DestinationDirectory` are never assigned by the program, so they hold the
empty string when `FreezePartitions.Run` reads them. -/
def main (conn : Conn) (fuel : Nat) (args : Flags) (w : World) : Outcome Unit × World :=
  let g : Globals :=
    { NoFreezeFlag := args.argNoFreeze, SourceDirectory := "", DestinationDirectory := "" }
  let dsn := ClickhouseConnectionString args
  let w1 := w.emit (.dial dsn)
  match conn.dial dsn with
  | some err =>
    (.fatal, logFatalf .Error "can't connect to clickouse server, v%" [.err err] w1)
  | none =>
    let w2 := w1.emit .ping
    match conn.ping w1.trace with
    | some (.exception code message stackTrace) =>
      (.fatal, logFatalf .Error "[%d] %s \n%s\n" [.int code, .str message, .str stackTrace] w2)
    | some err => (.fatal, logFatalln .Error [.err err] w2)
    | none => mainDispatch g conn fuel args w2

/-! ## The program: `src/clickhousedump/main.go` -/

namespace clickhousedump

structure DataBase where
  Name : String
  deriving DecidableEq, Repr

structure GetDatabasesList where
  Result : List DataBase
  deriving DecidableEq, Repr

/-- The packages `fileutils`, `partutils` and `restore` imported by the nested
entry point.  Their source is not part of the repository files at hand, so
the functions `main` calls in them are parameters; `PD` is the partition
descriptor type of `partutils`. -/
structure Packages (PD : Type) where
  /-- The function `fileutils.IsDirectoryInListExist`. -/
  IsDirectoryInListExist : List String → World → (Option GoError × String) × World
  /-- The method `parts.GetPartitions{Database}.Run`: error and `Result`. -/
  GetPartitionsRun : String → Conn → World → Outcome (Option GoError × List PD) × World
  /-- The method `parts.FreezePartitions{Partitions, SourceDirectory,
  DestinationDirectory, NoFreezeFlag}.Run`. -/
  FreezePartitionsRun : List PD → String → String → Bool → Conn → Nat → World →
    Outcome (Option GoError) × World
  /-- The method `restore.RestoreDatabase{DatabaseName, SourceDirectory,
  DestinationDirectory}.Run`. -/
  RestoreDatabaseRun : String → String → String → Conn → Nat → World →
    Outcome (Option GoError) × World

/-- The method `GetDatabasesList.Run` of the nested entry point. -/
def GetDatabasesList.Run (gd : GetDatabasesList) (conn : Conn) (w : World) :
    (Option GoError × GetDatabasesList) × World :=
  match dbSelectNames conn "show databases;" w with
  | (.error err, w1) => ((some err, gd), w1)
  | (.ok databases, w1) =>
    ((none, databases.foldl (fun (acc : GetDatabasesList) item =>
        { acc with Result := acc.Result ++ [{ Name := item }] }) gd), w1)

/-- The end of `main`. -/
def mainDone (w : World) : Outcome Unit × World :=
  (.ret (), (w.emit (.println "done")).emit .close)

/-- The loop of the backup branch over the databases. -/
def mainDatabasesLoop {PD : Type} (pk : Packages PD) (conn : Conn) (fuel : Nat) (args : Flags)
    (inputDirectory outputDirectory : String) :
    List DataBase → World → Outcome Unit × World
  | [], w => (.ret (), w)
  | Database :: rest, w =>
    match pk.GetPartitionsRun Database.Name conn w with
    | (.fatal, w1) => (.fatal, w1)
    | (.unfinished, w1) => (.unfinished, w1)
    | (.ret (err, Result), w1) =>
      let w2 :=
        match err with
        | some e => w1.emit (.logf .Error "can't get partition list, %v" [.err e])
        | none => w1
      if Database.Name = args.argDataBase then
        match pk.FreezePartitionsRun Result inputDirectory outputDirectory args.argNoFreeze
            conn fuel w2 with
        | (.ret none, w3) =>
          mainDatabasesLoop pk conn fuel args inputDirectory outputDirectory rest w3
        | (.ret (some e), w3) =>
          mainDatabasesLoop pk conn fuel args inputDirectory outputDirectory rest
            (w3.emit (.logf .Error "can't freeze partition, %v" [.err e]))
        | (.fatal, w3) => (.fatal, w3)
        | (.unfinished, w3) => (.unfinished, w3)
      else mainDatabasesLoop pk conn fuel args inputDirectory outputDirectory rest w2

/-- The backup branch of `main`. -/
def mainBackup {PD : Type} (pk : Packages PD) (conn : Conn) (fuel : Nat) (args : Flags)
    (w : World) : Outcome Unit × World :=
  let w1 := w.emit (.logln .Info [.str "Run in backup mode"])
  let inputDirectory :=
    if args.argInDirectory = "" then "/var/lib/clickhouse" else args.argInDirectory
  if args.argOutDirectory = "" then
    (.fatal, logFatalln .Error [.str "please set destination directory"] w1)
  else
    let outputDirectory := args.argOutDirectory
    match pk.IsDirectoryInListExist [inputDirectory, outputDirectory] w1 with
    | ((some _, noDirectory), w2) =>
      (.fatal, logFatalf .Error "%v not found" [.str noDirectory] w2)
    | ((none, _), w2) =>
      match GetDatabasesList.Run { Result := [] } conn w2 with
      | ((err, DatabaseList), w3) =>
        let w4 :=
          match err with
          | some e => w3.emit (.logf .Error "can't get database list, %v" [.err e])
          | none => w3
        match mainDatabasesLoop pk conn fuel args inputDirectory outputDirectory
            DatabaseList.Result w4 with
        | (.ret _, w5) => mainDone w5
        | (.fatal, w5) => (.fatal, w5)
        | (.unfinished, w5) => (.unfinished, w5)

/-- The restore branch of `main`. -/
def mainRestore {PD : Type} (pk : Packages PD) (conn : Conn) (fuel : Nat) (args : Flags)
    (w : World) : Outcome Unit × World :=
  let w1 := w.emit (.println "Run in restore mode")
  if args.argInDirectory = "" then
    (.fatal, logFatalln .Error [.str "please set source directory"] w1)
  else
    let inputDirectory := args.argInDirectory
    let outputDirectory :=
      if args.argOutDirectory = "" then "/var/lib/clickhouse" else args.argOutDirectory
    if args.argDataBase = "" then
      (.fatal, logFatalln .Error [.str "please set database for restore"] w1)
    else
      match pk.IsDirectoryInListExist [inputDirectory, outputDirectory] w1 with
      | ((some _, noDirectory), w2) =>
        (.fatal, logFatalf .Error "%v not found" [.str noDirectory] w2)
      | ((none, _), w2) =>
        match pk.RestoreDatabaseRun args.argDataBase inputDirectory outputDirectory
            conn fuel w2 with
        | (.ret none, w3) => mainDone w3
        | (.ret (some e), w3) =>
          mainDone (w3.emit (.logf .Error "can't restore database, %v" [.err e]))
        | (.fatal, w3) => (.fatal, w3)
        | (.unfinished, w3) => (.unfinished, w3)

/-- The mode dispatch of `main`. -/
def mainDispatch {PD : Type} (pk : Packages PD) (conn : Conn) (fuel : Nat) (args : Flags)
    (w : World) : Outcome Unit × World :=
  if args.argBackup && !args.argRestore then
    mainBackup pk conn fuel args w
  else if args.argRestore && !args.argBackup then
    mainRestore pk conn fuel args w
  else if !args.argRestore && !args.argBackup then
    mainDone (w.emit (.println "Choose mode (restore tor backup)"))
  else
    (.fatal, logFatalln .Error [.str "Run in only one mode (backup or restore)"] w)

/-- The function `main` of `src/clickhousedump/main.go`. -/
def main {PD : Type} (pk : Packages PD) (conn : Conn) (fuel : Nat) (args : Flags)
    (w : World) : Outcome Unit × World :=
  let dsn := ClickhouseConnectionString args
  let w1 := w.emit (.dial dsn)
  match conn.dial dsn with
  | some err =>
    (.fatal, logFatalf .Error "can't connect to clickouse server, %v" [.err err] w1)
  | none =>
    let w2 := w1.emit .ping
    match conn.ping w1.trace with
    | some (.exception code message stackTrace) =>
      (.fatal, logFatalf .Error "[%d] %s \n%s\n" [.int code, .str message, .str stackTrace] w2)
    | some err => (.fatal, logFatalln .Error [.err err] w2)
    | none => mainDispatch pk conn fuel args w2

end clickhousedump

/-! ## Notions used in the statements -/

/-- A table name that starts with a dot, read off its first character. -/
def startsWithDot (table : String) : Bool :=
  match table.data with
  | c :: _ => c = '.'
  | [] => false

/-- The descriptor `GetPartitions.Run` builds from a catalog row. -/
def descriptorOfRow (row : partitionRow) : partitionDescribe :=
  { databaseName := row.Database, tableName := row.Table, partID := row.Partition }

/-- The statement text, written out as a concatenation. -/
def alterText (partition : partitionDescribe) : String :=
  "ALTER TABLE " ++ partition.databaseName ++ "." ++ partition.tableName ++
    " FREEZE PARTITION '" ++ partition.partID ++ "';"

/-- The log line of a dry run for one partition. -/
def dryRunLine (partition : partitionDescribe) : Event :=
  .logf .Info "ALTER TABLE %v.%v FREEZE PARTITION '%v';"
    [.str partition.databaseName, .str partition.tableName, .str partition.partID]

/-- What `new` keeps of `old`: every file is still there with the same bytes,
and every directory is still a directory. -/
def Keeps (old new : Node) : Prop :=
  ∀ q : Path,
    (∀ data, old.get q = some (.file data) → new.get q = some (.file data)) ∧
    (∀ es, old.get q = some (.dir es) → ∃ es1, new.get q = some (.dir es1))

/-- What `new` keeps of the directories of `old`: each is still a directory. -/
def KeepsDirs (old new : Node) : Prop :=
  ∀ (q : Path) (es : List (String × Node)),
    old.get q = some (.dir es) → ∃ es1, new.get q = some (.dir es1)

/-- The trace of `w1` is the trace of `w` followed by events that all satisfy
`ok`. -/
def TraceAdds (ok : Event → Bool) (w w1 : World) : Prop :=
  ∃ seg : List Event, w1.trace = w.trace ++ seg ∧ ∀ e ∈ seg, ok e = true

/-- An event that is no statement on the connection. -/
def notStatement (e : Event) : Bool := !e.isStatement

/-- What a call that only touches the filesystem and the logs does to the
world: directories stay directories, and no statement is added to the trace. -/
def FsOnly (w w1 : World) : Prop :=
  KeepsDirs w.fs w1.fs ∧ TraceAdds notStatement w w1

/-- The trace after a run that stops at "only one mode". -/
def onlyOneModeWorld (args : Flags) (w : World) : World :=
  { fs := w.fs,
    trace := w.trace ++
      [ .dial (ClickhouseConnectionString args), .ping,
        .logln .Error [.str "Run in only one mode (backup or restore)"], .exit 1 ] }

/-- The trace after a run that only prints the mode prompt. -/
def chooseModeWorld (args : Flags) (w : World) : World :=
  { fs := w.fs,
    trace := w.trace ++
      [ .dial (ClickhouseConnectionString args), .ping,
        .println "Choose mode (restore tor backup)", .println "done", .close ] }

/-- An event that is neither a statement on the connection nor a filesystem
call. -/
def idleEvent (e : Event) : Bool := !e.isStatement && !e.isFilesystem

/-- Neither path lies on the other. -/
def Apart (p q : Path) : Prop := ¬ p <+: q ∧ ¬ q <+: p

mutual
/-- The number of directory levels of a node: 0 for a file, 1 for an empty
directory. -/
def Node.height : Node → Nat
  | .file _ => 0
  | .dir es => heightEntries es + 1
/-- The largest height among the entries. -/
def heightEntries : List (String × Node) → Nat
  | [] => 0
  | (_, n) :: rest => max n.height (heightEntries rest)
end

mutual
/-- A tree as a filesystem holds it: in every directory the entries have
names a file can have, and no name occurs twice. -/
def Node.wellFormed : Node → Bool
  | .file _ => true
  | .dir es => entriesWellFormed es
/-- The entries of a well-formed directory. -/
def entriesWellFormed : List (String × Node) → Bool
  | [] => true
  | (name, n) :: rest =>
    validName name && decide (name ∉ rest.map Prod.fst) && n.wellFormed &&
      entriesWellFormed rest
end

/-- No path on the way from the root to `p`, `p` included, is a file (so that
`MkdirAll(p)` has nothing to fail on). -/
def noFileOnTheWay (fs : Node) (p : Path) : Bool :=
  p.inits.all (fun q =>
    match fs.get q with
    | some (.file _) => false
    | _ => true)

/-- The directory copy of a source tree of height at most `fuel` into a
destination that `MkdirAll` has just created empty: it returns `nil` and the
filesystem is the one before with the source tree put at the destination. -/
def CopiesAtDepth (fuel : Nat) : Prop :=
  ∀ (es : List (String × Node)) (s d : String) (w : World) (fs1 : Node),
    s ≠ "" → d ≠ "" →
    (Node.dir es).height ≤ fuel →
    entriesWellFormed es = true →
    w.fs.get (components s) = some (.dir es) →
    w.fs.mkdirAll (components d) = some fs1 →
    fs1.get (components d) = some (.dir []) →
    Apart (components s) (components d) →
    ∃ w1, copyDirectory fuel s d w = (.ret none, w1) ∧
      fs1.set (components d) (.dir es) = some w1.fs

/-! ## Concrete inputs -/

/-- A server that accepts everything and has no databases. -/
def quietConn : Conn :=
  { dial := fun _ => none
    ping := fun _ => none
    exec := fun _ _ => none
    selectNames := fun _ _ => .ok []
    selectPartitions := fun _ _ => .ok [] }

/-- The partition of the end-to-end scenario. -/
def eventsPartition : partitionDescribe :=
  { databaseName := "analytics", tableName := "events", partID := "202401" }

/-- The catalog rows of the end-to-end scenario. -/
def scenarioRows : List partitionRow :=
  [ { Partition := "202401", Table := "events", Database := "analytics" },
    { Partition := "x", Table := ".inner_mv", Database := "analytics" } ]

/-- A server whose partition catalog holds the rows of the scenario. -/
def scenarioConn : Conn :=
  { quietConn with selectPartitions := fun _ _ => .ok scenarioRows }

/-- A data directory `/src` of the server with one frozen part and the table
metadata of database `analytics`, and an empty archive directory `/dst`. -/
def liveFs : Node :=
  .dir [
    ("src", .dir [
      ("shadow", .dir [("1", .dir [("data", .dir [("analytics", .dir [
        ("events", .dir [("202401_1_1_0", .dir [("data.bin", .file [1, 2, 3])])])])])])]),
      ("metadata", .dir [("analytics", .dir [("events.sql", .file [7])])])]),
    ("dst", .dir [])]

/-- The filesystem `liveFs` with nothing done yet. -/
def liveWorld : World :=
  { fs := liveFs, trace := [] }

/-- The globals of the end-to-end scenario: source root `/src`, destination
root `/dst`, no dry run. -/
def scenarioGlobals : Globals :=
  { NoFreezeFlag := false, SourceDirectory := "/src", DestinationDirectory := "/dst" }

/-- Globals under which a run over `liveWorld` goes through: the program
creates the archive under `SourceDirectory` and reads the frozen data under
`DestinationDirectory`. -/
def crossedGlobals : Globals :=
  { NoFreezeFlag := false, SourceDirectory := "/dst", DestinationDirectory := "/src" }

/-- An empty root directory with an empty trace. -/
def emptyWorld : World :=
  { fs := .dir [], trace := [] }

/-- The filesystem `liveFs` without the metadata directory of the server. -/
def bareFs : Node :=
  .dir [
    ("src", .dir [
      ("shadow", .dir [("1", .dir [("data", .dir [("analytics", .dir [
        ("events", .dir [("202401_1_1_0", .dir [("data.bin", .file [1, 2, 3])])])])])])])]),
    ("dst", .dir [])]

/-- The filesystem after the run of the scenario over `bareFs`. -/
def bareFsAfter : Node :=
  .dir [
    ("src", .dir [
      ("shadow", .dir [("1", .dir [("data", .dir [("analytics", .dir [
        ("events", .dir [("202401_1_1_0", .dir [("data.bin", .file [1, 2, 3])])])])])])]),
      ("partitions", .dir [("analytics", .dir [])]),
      ("metadata", .dir [("analytics", .dir [])])]),
    ("dst", .dir [])]

/-- A server with the databases `analytics` and `logs`, one active partition
each. -/
def twoDatabasesConn : Conn :=
  { quietConn with
    selectNames := fun _ _ => .ok ["analytics", "logs"]
    selectPartitions := fun _ query =>
      if query = partitionQuery "analytics" then
        .ok [{ Partition := "202401", Table := "events", Database := "analytics" }]
      else if query = partitionQuery "logs" then
        .ok [{ Partition := "202402", Table := "requests", Database := "logs" }]
      else .ok [] }

/-- The command line `--backup --in /src --out /dst`. -/
def backupFlags : Flags :=
  { Flags.defaults with argBackup := true, argInDirectory := "/src", argOutDirectory := "/dst" }

/-- The command line `--backup --restore`. -/
def bothFlags : Flags :=
  { Flags.defaults with argBackup := true, argRestore := true }

/-- Modelled from the spec: the packages `fileutils`, `partutils` and `restore`
of the nested entry point are not among the source files.  The spec describes
the nested variant as the same orchestration with the helpers of `main.go`
extracted into packages, and the restore orchestrator as a placeholder; the
stand-ins are those helpers, with the fields of the struct literal in place
of the package-level variables, and a restore that does nothing. -/
def standInPackages : clickhousedump.Packages partitionDescribe :=
  { IsDirectoryInListExist := isDirectoryExist
    GetPartitionsRun := fun database conn w =>
      match GetPartitions.Run { Database := database, Result := [] } conn w with
      | ((err, gp), w1) => (.ret (err, gp.Result), w1)
    FreezePartitionsRun := fun partitions source destination noFreeze conn fuel w =>
      FreezePartitions.Run { Partitions := partitions }
        { NoFreezeFlag := noFreeze, SourceDirectory := source,
          DestinationDirectory := destination }
        conn fuel w
    RestoreDatabaseRun := fun _ _ _ _ _ w => (.ret none, w) }

/-! # Properties -/

/-! ## Formatting -/

theorem freezeStatement_eq (p : partitionDescribe) : freezeStatement p = alterText p := by
  apply String.ext
  have h : ("ALTER TABLE %v.%v FREEZE PARTITION '%v';" : String).data =
      ['A','L','T','E','R',' ','T','A','B','L','E',' ','%','v','.','%','v',' ',
       'F','R','E','E','Z','E',' ','P','A','R','T','I','T','I','O','N',' ',
       Char.ofNat 39,'%','v',Char.ofNat 39,';'] := by decide
  simp only [freezeStatement, Sprintf, h, alterText, String.data_append]
  simp [sprintfChars]

theorem stringsHasPrefix_dot (t : String) : stringsHasPrefix t "." = startsWithDot t := by
  unfold stringsHasPrefix startsWithDot
  have h : (".": String).data = ['.'] := by decide
  rw [h]
  cases t.data with
  | nil => rfl
  | cons c cs =>
    simp only [List.isPrefixOf, Bool.and_true]
    by_cases hc : c = '.'
    · simp [hc]
    · have hc1 : ¬ ('.' = c) := fun h => hc h.symm
      simp [hc, hc1]

/-! ## The partition catalog query -/

theorem collectPartitions_result (rows : List partitionRow) (gp : GetPartitions) (w : World) :
    (collectPartitions rows gp w).1 =
      { Database := gp.Database,
        Result := gp.Result ++
          (rows.filter (fun row => !startsWithDot row.Table)).map descriptorOfRow } := by
  induction rows generalizing gp w with
  | nil => simp [collectPartitions]
  | cons row rest ih =>
    unfold collectPartitions
    rw [stringsHasPrefix_dot]
    by_cases hdot : startsWithDot row.Table = true
    · simp [hdot, ih]
    · simp [hdot, ih, descriptorOfRow]

/-- C1: when the partition query returns `rows`, `GetPartitions.Run` started
with an empty `Result` returns no error and ends with `Result` equal to the
rows whose table name does not start with a dot, each turned into the
descriptor (database, table, partition), in the order of the rows; no
descriptor in it has a dot-prefixed table. -/
theorem getPartitions_run_result (conn : Conn) (database : String) (w : World)
    (rows : List partitionRow)
    (hrows : conn.selectPartitions w.trace (partitionQuery database) = .ok rows) :
    (GetPartitions.Run { Database := database, Result := [] } conn w).1.1 = none ∧
    (GetPartitions.Run { Database := database, Result := [] } conn w).1.2.Result =
      (rows.filter (fun row => !startsWithDot row.Table)).map descriptorOfRow ∧
    (∀ d ∈ (GetPartitions.Run { Database := database, Result := [] } conn w).1.2.Result,
      startsWithDot d.tableName = false) := by
  have hrun : (GetPartitions.Run { Database := database, Result := [] } conn w).1 =
      (none, (collectPartitions rows { Database := database, Result := [] }
        (w.emit (.select (partitionQuery database)))).1) := by
    simp [GetPartitions.Run, dbSelectPartitions, hrows]
  rw [hrun, collectPartitions_result]
  refine ⟨rfl, by simp, ?_⟩
  intro d hd
  simp only [List.nil_append, List.mem_map, List.mem_filter] at hd
  obtain ⟨row, ⟨_, hrow⟩, rfl⟩ := hd
  simpa [descriptorOfRow] using hrow

theorem getPartitions_run_result_witness :
    scenarioConn.selectPartitions emptyWorld.trace (partitionQuery "analytics") =
      .ok scenarioRows ∧
    (GetPartitions.Run { Database := "analytics", Result := [] } scenarioConn emptyWorld).1.2.Result =
      [{ databaseName := "analytics", tableName := "events", partID := "202401" }] :=
  ⟨rfl, (getPartitions_run_result scenarioConn "analytics" emptyWorld scenarioRows rfl).2.1.trans
    (by decide)⟩

/-! ## The filesystem: entries of a directory -/

theorem lookupEntry_append_of_some {k : String} {v : Node} {es : List (String × Node)}
    (l : List (String × Node)) (h : lookupEntry k es = some v) :
    lookupEntry k (es ++ l) = some v := by
  induction es with
  | nil => simp [lookupEntry] at h
  | cons e es ih =>
    obtain ⟨a, b⟩ := e
    simp only [lookupEntry, List.cons_append] at h ⊢
    by_cases hk : a = k
    · simpa [hk] using h
    · simp only [hk, if_false] at h ⊢
      exact ih h

theorem lookupEntry_append_of_none {k : String} {es : List (String × Node)}
    (l : List (String × Node)) (h : lookupEntry k es = none) :
    lookupEntry k (es ++ l) = lookupEntry k l := by
  induction es with
  | nil => rfl
  | cons e es ih =>
    obtain ⟨a, b⟩ := e
    simp only [lookupEntry, List.cons_append] at h ⊢
    by_cases hk : a = k
    · simp [hk] at h
    · simp only [hk, if_false] at h ⊢
      exact ih h

theorem lookupEntry_replaceEntry_self {c : String} {n : Node} (m : Node)
    {es : List (String × Node)} (h : lookupEntry c es = some n) :
    lookupEntry c (replaceEntry c m es) = some m := by
  induction es with
  | nil => simp [lookupEntry] at h
  | cons e es ih =>
    obtain ⟨a, b⟩ := e
    simp only [lookupEntry, replaceEntry] at h ⊢
    by_cases hk : a = c
    · simp [hk, lookupEntry]
    · simp only [hk, if_false, lookupEntry] at h ⊢
      exact ih h

theorem lookupEntry_replaceEntry_ne {k c : String} (m : Node) (es : List (String × Node))
    (hne : k ≠ c) : lookupEntry k (replaceEntry c m es) = lookupEntry k es := by
  induction es with
  | nil => rfl
  | cons e es ih =>
    obtain ⟨a, b⟩ := e
    simp only [replaceEntry]
    by_cases hk : a = c
    · have hck : ¬ c = k := fun h => hne h.symm
      simp [hk, lookupEntry, hck]
    · simp only [hk, if_false, lookupEntry, ih]

theorem replaceEntry_replaceEntry (c : String) (m n : Node) (es : List (String × Node)) :
    replaceEntry c m (replaceEntry c n es) = replaceEntry c m es := by
  induction es with
  | nil => rfl
  | cons e es ih =>
    obtain ⟨a, b⟩ := e
    simp only [replaceEntry]
    by_cases hk : a = c
    · simp [hk, replaceEntry]
    · simp [hk, replaceEntry, ih]

theorem replaceEntry_append_of_none {c : String} (m : Node) {es : List (String × Node)}
    (l : List (String × Node)) (h : lookupEntry c es = none) :
    replaceEntry c m (es ++ l) = es ++ replaceEntry c m l := by
  induction es with
  | nil => rfl
  | cons e es ih =>
    obtain ⟨a, b⟩ := e
    simp only [lookupEntry, List.cons_append, replaceEntry] at h ⊢
    by_cases hk : a = c
    · simp [hk] at h
    · simp only [hk, if_false] at h ⊢
      exact congrArg _ (ih h)

theorem replaceEntry_same {c : String} {n : Node} {es : List (String × Node)}
    (h : lookupEntry c es = some n) : replaceEntry c n es = es := by
  induction es with
  | nil => rfl
  | cons e es ih =>
    obtain ⟨a, b⟩ := e
    simp only [lookupEntry, replaceEntry] at h ⊢
    by_cases hk : a = c
    · simp only [hk, if_true] at h ⊢
      cases h; rfl
    · simp only [hk, if_false] at h ⊢
      rw [ih h]

/-! ### Lookup and update at a path -/

theorem Node.get_nil (n : Node) : n.get [] = some n := by
  cases n <;> rfl

theorem Node.get_file_cons (d : List UInt8) (c : String) (r : Path) :
    (Node.file d).get (c :: r) = none := rfl

theorem Node.get_dir_cons (es : List (String × Node)) (c : String) (r : Path) :
    (Node.dir es).get (c :: r) = (lookupEntry c es).bind (fun n => n.get r) := by
  simp only [Node.get]
  cases lookupEntry c es <;> rfl

theorem Node.get_append (fs : Node) (p r : Path) :
    fs.get (p ++ r) = (fs.get p).bind (fun n => n.get r) := by
  induction p generalizing fs with
  | nil => simp [Node.get_nil]
  | cons c p ih =>
    cases fs with
    | file d => simp [Node.get_file_cons]
    | dir es =>
      simp only [List.cons_append, Node.get_dir_cons]
      cases lookupEntry c es with
      | none => rfl
      | some n => simp [ih]

theorem Node.set_nil (n x : Node) : n.set [] x = some x := by
  cases n <;> rfl

theorem Node.set_file_cons (d : List UInt8) (c : String) (r : Path) (x : Node) :
    (Node.file d).set (c :: r) x = none := rfl

theorem Node.set_dir_cons_some {es : List (String × Node)} {c : String} {n : Node}
    (r : Path) (x : Node) (h : lookupEntry c es = some n) :
    (Node.dir es).set (c :: r) x = (n.set r x).map (fun m => .dir (replaceEntry c m es)) := by
  simp only [Node.set, h]

theorem Node.set_dir_cons_none_nil {es : List (String × Node)} {c : String}
    (x : Node) (h : lookupEntry c es = none) :
    (Node.dir es).set [c] x = some (.dir (es ++ [(c, x)])) := by
  simp only [Node.set, h]

theorem Node.set_dir_cons_none_cons {es : List (String × Node)} {c : String}
    (d : String) (r : Path) (x : Node) (h : lookupEntry c es = none) :
    (Node.dir es).set (c :: d :: r) x = none := by
  simp only [Node.set, h]

/-! ### What the updates keep -/

theorem Keeps.same (fs : Node) : Keeps fs fs :=
  fun _ => ⟨fun _ h => h, fun es h => ⟨es, h⟩⟩

theorem Keeps.andThen {a b c : Node} (hab : Keeps a b) (hbc : Keeps b c) : Keeps a c := by
  intro q
  refine ⟨fun d h => (hbc q).1 d ((hab q).1 d h), fun es h => ?_⟩
  obtain ⟨es1, h1⟩ := (hab q).2 es h
  exact (hbc q).2 es1 h1

theorem Keeps.keepsDirs {a b : Node} (h : Keeps a b) : KeepsDirs a b :=
  fun q es hq => (h q).2 es hq

theorem KeepsDirs.sameDirs (fs : Node) : KeepsDirs fs fs :=
  fun _ es h => ⟨es, h⟩

theorem KeepsDirs.thenDirs {a b c : Node} (hab : KeepsDirs a b) (hbc : KeepsDirs b c) :
    KeepsDirs a c := by
  intro q es h
  obtain ⟨es1, h1⟩ := hab q es h
  exact hbc q es1 h1

/-- Replacing the entry `c` of a directory by a node that keeps the old one. -/
theorem keeps_replaceEntry {c : String} {n m : Node} {es : List (String × Node)}
    (hlook : lookupEntry c es = some n) (hnm : Keeps n m) :
    Keeps (.dir es) (.dir (replaceEntry c m es)) := by
  intro q
  cases q with
  | nil => exact ⟨fun d h => by simp [Node.get_nil] at h, fun _ _ => ⟨_, Node.get_nil _⟩⟩
  | cons k qs =>
    simp only [Node.get_dir_cons]
    by_cases hk : k = c
    · subst hk
      rw [hlook, lookupEntry_replaceEntry_self m hlook]
      exact hnm qs
    · rw [lookupEntry_replaceEntry_ne m es hk]
      exact ⟨fun _ h => h, fun es1 h => ⟨es1, h⟩⟩

theorem keepsDirs_replaceEntry {c : String} {n m : Node} {es : List (String × Node)}
    (hlook : lookupEntry c es = some n) (hnm : KeepsDirs n m) :
    KeepsDirs (.dir es) (.dir (replaceEntry c m es)) := by
  intro q
  cases q with
  | nil => exact fun _ _ => ⟨_, Node.get_nil _⟩
  | cons k qs =>
    simp only [Node.get_dir_cons]
    by_cases hk : k = c
    · subst hk
      rw [hlook, lookupEntry_replaceEntry_self m hlook]
      exact hnm qs
    · rw [lookupEntry_replaceEntry_ne m es hk]
      exact fun es1 h => ⟨es1, h⟩

/-- Adding a new last entry to a directory. -/
theorem keeps_append_entry (c : String) (x : Node) (es : List (String × Node)) :
    Keeps (.dir es) (.dir (es ++ [(c, x)])) := by
  intro q
  cases q with
  | nil => exact ⟨fun d h => by simp [Node.get_nil] at h, fun _ _ => ⟨_, Node.get_nil _⟩⟩
  | cons k qs =>
    simp only [Node.get_dir_cons]
    cases hk : lookupEntry k es with
    | none => exact ⟨fun d h => by simp at h, fun es1 h => by simp at h⟩
    | some v =>
      rw [lookupEntry_append_of_some _ hk]
      exact ⟨fun _ h => h, fun es1 h => ⟨es1, h⟩⟩

/-- Putting a node where there was none keeps everything. -/
theorem Node.set_keeps {fs fs1 : Node} {p : Path} {x : Node}
    (hnone : fs.get p = none) (hset : fs.set p x = some fs1) : Keeps fs fs1 := by
  induction p generalizing fs fs1 with
  | nil => simp [Node.get_nil] at hnone
  | cons c rest ih =>
    cases fs with
    | file d => simp [Node.set_file_cons] at hset
    | dir es =>
      cases hlook : lookupEntry c es with
      | some n =>
        rw [Node.set_dir_cons_some rest x hlook] at hset
        rw [Node.get_dir_cons, hlook] at hnone
        simp only [Option.map_eq_some'] at hset
        obtain ⟨m, hm, rfl⟩ := hset
        exact keeps_replaceEntry hlook (ih hnone hm)
      | none =>
        cases rest with
        | nil =>
          rw [Node.set_dir_cons_none_nil x hlook] at hset
          cases hset
          exact keeps_append_entry c x es
        | cons d r => simp [Node.set_dir_cons_none_cons d r x hlook] at hset

/-- Putting a file where there was a file or nothing keeps the directories. -/
theorem Node.set_file_keepsDirs {fs fs1 : Node} {p : Path} {data : List UInt8}
    (hnodir : ∀ es, fs.get p ≠ some (.dir es)) (hset : fs.set p (.file data) = some fs1) :
    KeepsDirs fs fs1 := by
  induction p generalizing fs fs1 with
  | nil =>
    cases fs with
    | file d => 
      intro q es hq
      cases q with
      | nil => simp [Node.get_nil] at hq
      | cons k qs => simp [Node.get_file_cons] at hq
    | dir es => exact absurd (Node.get_nil _) (hnodir es)
  | cons c rest ih =>
    cases fs with
    | file d => simp [Node.set_file_cons] at hset
    | dir es =>
      cases hlook : lookupEntry c es with
      | some n =>
        rw [Node.set_dir_cons_some rest _ hlook] at hset
        simp only [Node.get_dir_cons, hlook, Option.some_bind] at hnodir
        simp only [Option.map_eq_some'] at hset
        obtain ⟨m, hm, rfl⟩ := hset
        exact keepsDirs_replaceEntry hlook (ih hnodir hm)
      | none =>
        cases rest with
        | nil =>
          rw [Node.set_dir_cons_none_nil _ hlook] at hset
          cases hset
          exact (keeps_append_entry c _ es).keepsDirs
        | cons d r => simp [Node.set_dir_cons_none_cons d r _ hlook] at hset

theorem Node.get_set_self {fs fs1 : Node} {p : Path} {x : Node}
    (hset : fs.set p x = some fs1) : fs1.get p = some x := by
  induction p generalizing fs fs1 with
  | nil => 
    rw [Node.set_nil] at hset
    cases hset
    exact Node.get_nil _
  | cons c rest ih =>
    cases fs with
    | file d => simp [Node.set_file_cons] at hset
    | dir es =>
      cases hlook : lookupEntry c es with
      | some n =>
        rw [Node.set_dir_cons_some rest x hlook] at hset
        simp only [Option.map_eq_some'] at hset
        obtain ⟨m, hm, rfl⟩ := hset
        rw [Node.get_dir_cons, lookupEntry_replaceEntry_self m hlook]
        exact ih hm
      | none =>
        cases rest with
        | nil =>
          rw [Node.set_dir_cons_none_nil x hlook] at hset
          cases hset
          rw [Node.get_dir_cons, lookupEntry_append_of_none _ hlook]
          simp [lookupEntry, Node.get_nil]
        | cons d r => simp [Node.set_dir_cons_none_cons d r x hlook] at hset

theorem Node.mkdirAll_dir_nil (es : List (String × Node)) :
    (Node.dir es).mkdirAll [] = some (.dir es) := rfl

theorem Node.mkdirAll_file (d : List UInt8) (p : Path) : (Node.file d).mkdirAll p = none := by
  cases p <;> rfl

theorem Node.mkdirAll_dir_cons_some {es : List (String × Node)} {c : String} {n : Node}
    (r : Path) (h : lookupEntry c es = some n) :
    (Node.dir es).mkdirAll (c :: r) =
      (n.mkdirAll r).map (fun m => .dir (replaceEntry c m es)) := by
  simp only [Node.mkdirAll, h]

theorem Node.mkdirAll_dir_cons_none {es : List (String × Node)} {c : String}
    (r : Path) (h : lookupEntry c es = none) :
    (Node.dir es).mkdirAll (c :: r) =
      ((Node.dir []).mkdirAll r).map (fun m => .dir (es ++ [(c, m)])) := by
  simp only [Node.mkdirAll, h]

theorem Node.mkdirAll_keeps {fs fs1 : Node} {p : Path}
    (hmk : fs.mkdirAll p = some fs1) : Keeps fs fs1 := by
  induction p generalizing fs fs1 with
  | nil =>
    cases fs with
    | file d => simp [Node.mkdirAll_file] at hmk
    | dir es =>
      rw [Node.mkdirAll_dir_nil] at hmk
      cases hmk
      exact Keeps.same _
  | cons c rest ih =>
    cases fs with
    | file d => simp [Node.mkdirAll_file] at hmk
    | dir es =>
      cases hlook : lookupEntry c es with
      | some n =>
        rw [Node.mkdirAll_dir_cons_some rest hlook] at hmk
        simp only [Option.map_eq_some'] at hmk
        obtain ⟨m, hm, rfl⟩ := hmk
        exact keeps_replaceEntry hlook (ih hm)
      | none =>
        rw [Node.mkdirAll_dir_cons_none rest hlook] at hmk
        simp only [Option.map_eq_some'] at hmk
        obtain ⟨m, _, rfl⟩ := hmk
        exact keeps_append_entry c m es

theorem Node.mkdir_ok {fs fs1 : Node} {p : Path} (h : fs.mkdir p = .ok fs1) :
    fs.get p = none ∧ fs.set p (.dir []) = some fs1 := by
  unfold Node.mkdir at h
  cases hg : fs.get p with
  | some n => simp [hg] at h
  | none =>
    simp only [hg] at h
    cases hs : fs.set p (.dir []) with
    | none => simp [hs] at h
    | some fs2 =>
      simp only [hs] at h
      cases h
      exact ⟨rfl, rfl⟩

theorem Node.mkdir_exists {fs n : Node} {p : Path} (h : fs.get p = some n) :
    fs.mkdir p = .error .EEXIST := by
  simp [Node.mkdir, h]

theorem Node.writeFile_ok {fs fs1 : Node} {p : Path} {data : List UInt8}
    (h : fs.writeFile p data = .ok fs1) :
    (∀ es, fs.get p ≠ some (.dir es)) ∧ fs.set p (.file data) = some fs1 := by
  unfold Node.writeFile at h
  split at h
  · simp at h
  · rename_i hnd
    cases hs : fs.set p (.file data) with
    | none => simp [hs] at h
    | some fs2 =>
      simp only [hs] at h
      cases h
      exact ⟨fun es he => hnd es he, rfl⟩

/-! ### The calls on the world -/

@[simp] theorem World.emit_trace (w : World) (e : Event) : (w.emit e).trace = w.trace ++ [e] :=
  rfl

@[simp] theorem World.emit_fs (w : World) (e : Event) : (w.emit e).fs = w.fs := rfl

theorem TraceAdds.nothing (ok : Event → Bool) (w : World) : TraceAdds ok w w :=
  ⟨[], by simp, by simp⟩

theorem TraceAdds.append {ok : Event → Bool} {a b c : World} (hab : TraceAdds ok a b)
    (hbc : TraceAdds ok b c) : TraceAdds ok a c := by
  obtain ⟨s1, h1, k1⟩ := hab
  obtain ⟨s2, h2, k2⟩ := hbc
  refine ⟨s1 ++ s2, by rw [h2, h1, List.append_assoc], ?_⟩
  intro e he
  rcases List.mem_append.1 he with h | h
  · exact k1 e h
  · exact k2 e h

theorem TraceAdds.event {ok : Event → Bool} (w : World) (e : Event) (he : ok e = true) :
    TraceAdds ok w (w.emit e) :=
  ⟨[e], rfl, by simpa using he⟩

theorem TraceAdds.of_trace {ok : Event → Bool} {w w1 : World} (e : Event)
    (h : w1.trace = w.trace ++ [e]) (he : ok e = true) : TraceAdds ok w w1 :=
  ⟨[e], h, by simpa using he⟩

theorem osStat_world (path : String) (w : World) : (osStat path w).2 = w.emit (.stat path) := by
  unfold osStat
  cases resolve path with
  | none => rfl
  | some p =>
    simp only
    cases (w.emit (.stat path)).fs.get p <;> rfl

theorem ioutilReadDir_world (path : String) (w : World) :
    (ioutilReadDir path w).2 = w.emit (.readDir path) := by
  unfold ioutilReadDir
  cases resolve path with
  | none => rfl
  | some p =>
    simp only
    cases (w.emit (.readDir path)).fs.get p with
    | none => rfl
    | some n => cases n <;> rfl

theorem ioutilReadFile_world (path : String) (w : World) :
    (ioutilReadFile path w).2 = w.emit (.readFile path) := by
  unfold ioutilReadFile
  cases resolve path with
  | none => rfl
  | some p =>
    simp only
    cases (w.emit (.readFile path)).fs.get p with
    | none => rfl
    | some n => cases n <;> rfl

theorem osMkdir_trace (path : String) (w : World) :
    (osMkdir path w).2.trace = w.trace ++ [.mkdir path] := by
  unfold osMkdir
  cases resolve path with
  | none => rfl
  | some p =>
    simp only
    cases (w.emit (.mkdir path)).fs.mkdir p <;> rfl

theorem osMkdir_keeps (path : String) (w : World) : Keeps w.fs (osMkdir path w).2.fs := by
  unfold osMkdir
  cases resolve path with
  | none => exact Keeps.same _
  | some p =>
    simp only
    cases h : (w.emit (.mkdir path)).fs.mkdir p with
    | error e => exact Keeps.same _
    | ok fs1 =>
      obtain ⟨hn, hs⟩ := Node.mkdir_ok h
      exact Node.set_keeps hn hs

/-- A failed `os.Mkdir` leaves the filesystem as it was. -/
theorem osMkdir_error_fs {path : String} {w : World} {err : GoError}
    (h : (osMkdir path w).1 = some err) : (osMkdir path w).2.fs = w.fs := by
  cases hr : resolve path with
  | none => simp [osMkdir, hr]
  | some p =>
    cases hm : w.fs.mkdir p with
    | error e => simp [osMkdir, hr, hm]
    | ok fs1 => simp [osMkdir, hr, hm] at h

/-- After a successful `os.Mkdir` the path resolves to an empty directory. -/
theorem osMkdir_ok {path : String} {w : World} (h : (osMkdir path w).1 = none) :
    ∃ p, resolve path = some p ∧ (osMkdir path w).2.fs.get p = some (.dir []) := by
  cases hr : resolve path with
  | none => simp [osMkdir, hr] at h
  | some p =>
    cases hm : w.fs.mkdir p with
    | error e => simp [osMkdir, hr, hm] at h
    | ok fs1 =>
      refine ⟨p, rfl, ?_⟩
      simp only [osMkdir, hr, World.emit_fs, hm]
      exact Node.get_set_self (Node.mkdir_ok hm).2

/-- `os.Mkdir` on a path that exists fails with `EEXIST` and changes nothing. -/
theorem osMkdir_exists {path : String} {w : World} {p : Path} {n : Node}
    (hr : resolve path = some p) (hn : w.fs.get p = some n) :
    osMkdir path w = (some (.path "mkdir" path .EEXIST), w.emit (.mkdir path)) := by
  unfold osMkdir
  simp only [hr]
  have : (w.emit (.mkdir path)).fs.mkdir p = .error .EEXIST := Node.mkdir_exists hn
  rw [this]

theorem osMkdirAll_trace (path : String) (w : World) :
    (osMkdirAll path w).2.trace = w.trace ++ [.mkdirAll path] := by
  unfold osMkdirAll
  cases resolve path with
  | none => rfl
  | some p =>
    simp only
    cases (w.emit (.mkdirAll path)).fs.mkdirAll p <;> rfl

theorem osMkdirAll_keeps (path : String) (w : World) : Keeps w.fs (osMkdirAll path w).2.fs := by
  unfold osMkdirAll
  cases resolve path with
  | none => exact Keeps.same _
  | some p =>
    simp only
    cases h : (w.emit (.mkdirAll path)).fs.mkdirAll p with
    | none => exact Keeps.same _
    | some fs1 => exact Node.mkdirAll_keeps h

theorem ioutilWriteFile_trace (path : String) (data : List UInt8) (w : World) :
    (ioutilWriteFile path data w).2.trace = w.trace ++ [.writeFile path data] := by
  unfold ioutilWriteFile
  cases resolve path with
  | none => rfl
  | some p =>
    simp only
    cases (w.emit (.writeFile path data)).fs.writeFile p data <;> rfl

theorem ioutilWriteFile_keepsDirs (path : String) (data : List UInt8) (w : World) :
    KeepsDirs w.fs (ioutilWriteFile path data w).2.fs := by
  unfold ioutilWriteFile
  cases resolve path with
  | none => exact KeepsDirs.sameDirs _
  | some p =>
    simp only
    cases h : (w.emit (.writeFile path data)).fs.writeFile p data with
    | error e => exact KeepsDirs.sameDirs _
    | ok fs1 =>
      obtain ⟨hn, hs⟩ := Node.writeFile_ok h
      exact Node.set_file_keepsDirs hn hs

theorem FsOnly.idle (w : World) : FsOnly w w :=
  ⟨KeepsDirs.sameDirs _, TraceAdds.nothing _ _⟩

theorem FsOnly.followedBy {a b c : World} (hab : FsOnly a b) (hbc : FsOnly b c) : FsOnly a c :=
  ⟨hab.1.thenDirs hbc.1, hab.2.append hbc.2⟩

theorem FsOnly.logged (w : World) (e : Event) (he : notStatement e = true) :
    FsOnly w (w.emit e) :=
  ⟨KeepsDirs.sameDirs _, TraceAdds.event w e he⟩

theorem osStat_fsOnly (path : String) (w : World) : FsOnly w (osStat path w).2 := by
  rw [osStat_world]
  exact FsOnly.logged _ _ rfl

theorem ioutilReadDir_fsOnly (path : String) (w : World) :
    FsOnly w (ioutilReadDir path w).2 := by
  rw [ioutilReadDir_world]
  exact FsOnly.logged _ _ rfl

theorem ioutilReadFile_fsOnly (path : String) (w : World) :
    FsOnly w (ioutilReadFile path w).2 := by
  rw [ioutilReadFile_world]
  exact FsOnly.logged _ _ rfl

theorem osMkdir_fsOnly (path : String) (w : World) : FsOnly w (osMkdir path w).2 :=
  ⟨(osMkdir_keeps path w).keepsDirs, TraceAdds.of_trace _ (osMkdir_trace path w) rfl⟩

theorem osMkdirAll_fsOnly (path : String) (w : World) : FsOnly w (osMkdirAll path w).2 :=
  ⟨(osMkdirAll_keeps path w).keepsDirs, TraceAdds.of_trace _ (osMkdirAll_trace path w) rfl⟩

theorem ioutilWriteFile_fsOnly (path : String) (data : List UInt8) (w : World) :
    FsOnly w (ioutilWriteFile path data w).2 :=
  ⟨ioutilWriteFile_keepsDirs path data w,
    TraceAdds.of_trace _ (ioutilWriteFile_trace path data w) rfl⟩

theorem logFatalf_fsOnly (level : Level) (format : String) (args : List Arg) (w : World) :
    FsOnly w (logFatalf level format args w) :=
  (FsOnly.logged w (.logf level format args) rfl).followedBy (FsOnly.logged _ (.exit 1) rfl)

theorem logFatalln_fsOnly (level : Level) (args : List Arg) (w : World) :
    FsOnly w (logFatalln level args w) :=
  (FsOnly.logged w (.logln level args) rfl).followedBy (FsOnly.logged _ (.exit 1) rfl)

theorem copyFile_fsOnly (s d : String) (w : World) : FsOnly w (copyFile s d w).2 := by
  unfold copyFile
  have h1 := ioutilReadFile_fsOnly s w
  rcases hr : ioutilReadFile s w with ⟨r, w1⟩
  rw [hr] at h1
  cases r with
  | error e => exact h1.followedBy (logFatalf_fsOnly _ _ _ _)
  | ok input =>
    simp only
    have h2 := ioutilWriteFile_fsOnly d input w1
    rcases hw : ioutilWriteFile d input w1 with ⟨r2, w2⟩
    rw [hw] at h2
    cases r2 with
    | some e => exact h1.followedBy (h2.followedBy (logFatalf_fsOnly _ _ _ _))
    | none => exact h1.followedBy h2

theorem copyEntries_fsOnly
    (recurse : String → String → World → Outcome (Option GoError) × World)
    (hrec : ∀ s d w, FsOnly w (recurse s d w).2) (s d : String)
    (entries : List (String × Bool)) (w : World) :
    FsOnly w (copyEntries recurse s d entries w).2 := by
  induction entries generalizing w with
  | nil => exact FsOnly.idle _
  | cons e rest ih =>
    unfold copyEntries
    simp only
    by_cases hdir : e.2 = true
    · simp only [hdir, if_true]
      have h1 := hrec (pathJoin s e.1) (pathJoin d e.1) w
      rcases hr : recurse (pathJoin s e.1) (pathJoin d e.1) w with ⟨o, w1⟩
      rw [hr] at h1
      cases o with
      | ret v =>
        cases v with
        | none => exact h1.followedBy (ih w1)
        | some err => exact h1.followedBy (logFatalln_fsOnly _ _ _)
      | fatal => exact h1
      | unfinished => exact h1
    · simp only [hdir]
      have h1 := copyFile_fsOnly (pathJoin s e.1) (pathJoin d e.1) w
      rcases hr : copyFile (pathJoin s e.1) (pathJoin d e.1) w with ⟨o, w1⟩
      rw [hr] at h1
      cases o with
      | ret v =>
        cases v with
        | none => exact h1.followedBy (ih w1)
        | some err => exact h1.followedBy (logFatalln_fsOnly _ _ _)
      | fatal => exact h1
      | unfinished => exact h1

theorem copyDirectory_fsOnly (fuel : Nat) (s d : String) (w : World) :
    FsOnly w (copyDirectory fuel s d w).2 := by
  induction fuel generalizing s d w with
  | zero => exact FsOnly.idle _
  | succ fuel ih =>
    unfold copyDirectory
    have h1 := osStat_fsOnly s w
    rcases hr1 : osStat s w with ⟨r1, w1⟩
    rw [hr1] at h1
    cases r1 with
    | error e => exact h1
    | ok info =>
      simp only
      have h2 := osMkdirAll_fsOnly d w1
      rcases hr2 : osMkdirAll d w1 with ⟨r2, w2⟩
      rw [hr2] at h2
      cases r2 with
      | some e => exact h1.followedBy h2
      | none =>
        simp only
        have h3 := ioutilReadDir_fsOnly s w2
        rcases hr3 : ioutilReadDir s w2 with ⟨r3, w3⟩
        rw [hr3] at h3
        cases r3 with
        | error e => exact h1.followedBy (h2.followedBy h3)
        | ok entries =>
          exact h1.followedBy (h2.followedBy (h3.followedBy (copyEntries_fsOnly _ ih s d entries w3)))

/-- The directories `createDirectories` goes through before it returns: all
of them, or those up to and including the one that failed. -/
theorem createDirectories_trace (dirs : List String) (w : World) :
    ∃ j, j ≤ dirs.length ∧
      (createDirectories dirs w).2.trace = w.trace ++ (dirs.take j).map Event.mkdir ∧
      ((createDirectories dirs w).1.1 ≠ none → 0 < j) := by
  induction dirs generalizing w with
  | nil => exact ⟨0, le_refl _, by simp [createDirectories], by simp [createDirectories]⟩
  | cons dir rest ih =>
    unfold createDirectories
    have h1 := osMkdir_trace dir w
    rcases hr : osMkdir dir w with ⟨r, w1⟩
    rw [hr] at h1
    cases r with
    | some e => exact ⟨1, by simp, by simpa using h1, by simp⟩
    | none =>
      obtain ⟨j, hj, ht, hpos⟩ := ih w1
      refine ⟨j + 1, by simpa using hj, ?_, fun _ => Nat.succ_pos _⟩
      simp only at ht ⊢
      rw [ht, h1]
      simp

theorem createDirectories_keeps (dirs : List String) (w : World) :
    Keeps w.fs (createDirectories dirs w).2.fs := by
  induction dirs generalizing w with
  | nil => exact Keeps.same _
  | cons dir rest ih =>
    unfold createDirectories
    have h1 := osMkdir_keeps dir w
    rcases hr : osMkdir dir w with ⟨r, w1⟩
    rw [hr] at h1
    cases r with
    | some e => exact h1
    | none => exact h1.andThen (ih w1)

/-- When `createDirectories` has succeeded, its first directory is there. -/
theorem createDirectories_first {dir : String} {rest : List String} {w : World}
    (h : (createDirectories (dir :: rest) w).1.1 = none) :
    ∃ p es, resolve dir = some p ∧
      (createDirectories (dir :: rest) w).2.fs.get p = some (.dir es) := by
  unfold createDirectories at h ⊢
  have h1 : (osMkdir dir w).1 = none → _ := osMkdir_ok
  rcases hr : osMkdir dir w with ⟨r, w1⟩
  rw [hr] at h h1
  cases r with
  | some e => simp at h
  | none =>
    obtain ⟨p, hp, hget⟩ := h1 rfl
    obtain ⟨es, hes⟩ := (createDirectories_keeps rest w1 p).2 [] hget
    exact ⟨p, es, hp, hes⟩

theorem createDirectories_fsOnly (dirs : List String) (w : World) :
    FsOnly w (createDirectories dirs w).2 := by
  induction dirs generalizing w with
  | nil => exact FsOnly.idle _
  | cons dir rest ih =>
    unfold createDirectories
    have h1 := osMkdir_fsOnly dir w
    rcases hr : osMkdir dir w with ⟨r, w1⟩
    rw [hr] at h1
    cases r with
    | some e => exact h1
    | none => exact h1.followedBy (ih w1)

/-! ## The freeze orchestrator -/

theorem freezeOne_dryRun (g : Globals) (hg : g.NoFreezeFlag = true) (conn : Conn) (fuel : Nat)
    (p : partitionDescribe) (w : World) :
    freezeOne g conn fuel p w = (.ret none, w.emit (dryRunLine p)) := by
  simp [freezeOne, hg, dryRunLine]

theorem freezeEach_dryRun (g : Globals) (hg : g.NoFreezeFlag = true) (conn : Conn) (fuel : Nat)
    (ps : List partitionDescribe) (w : World) :
    freezeEach g conn fuel ps w =
      (.ret none, { fs := w.fs, trace := w.trace ++ ps.map dryRunLine }) := by
  induction ps generalizing w with
  | nil => simp [freezeEach]
  | cons p rest ih =>
    unfold freezeEach
    rw [freezeOne_dryRun g hg]
    simp only
    rw [ih]
    simp [World.emit]

/-- After the freeze statement, the rest of the loop body only touches the
filesystem and the logs. -/
theorem freezeOne_fsOnly (g : Globals) (hg : g.NoFreezeFlag = false) (conn : Conn)
    (fuel : Nat) (p : partitionDescribe) (w : World) :
    FsOnly (w.emit (.exec (freezeStatement p))) (freezeOne g conn fuel p w).2 := by
  unfold freezeOne
  simp only [hg, dbExec]
  cases conn.exec w.trace (freezeStatement p) with
  | some err => exact FsOnly.idle _
  | none =>
    simp only [Bool.false_eq_true, if_false]
    have h1 := createDirectories_fsOnly (directoryList g.SourceDirectory p)
      (w.emit (.exec (freezeStatement p)))
    rcases hr : createDirectories (directoryList g.SourceDirectory p)
      (w.emit (.exec (freezeStatement p))) with ⟨⟨r, failDirectory⟩, w2⟩
    rw [hr] at h1
    cases r with
    | some err => exact h1.followedBy (FsOnly.logged _ _ rfl)
    | none =>
      simp only
      have h2 := copyDirectory_fsOnly fuel
        (g.DestinationDirectory ++ "/shadow/1/data/" ++ p.databaseName)
        (g.SourceDirectory ++ "/partitions/" ++ p.databaseName) w2
      rcases hc : copyDirectory fuel
        (g.DestinationDirectory ++ "/shadow/1/data/" ++ p.databaseName)
        (g.SourceDirectory ++ "/partitions/" ++ p.databaseName) w2 with ⟨o, w3⟩
      rw [hc] at h2
      cases o with
      | ret v =>
        cases v with
        | none =>
          exact h1.followedBy (h2.followedBy (copyDirectory_fsOnly fuel _ _ w3))
        | some err => exact h1.followedBy h2
      | fatal => exact h1.followedBy h2
      | unfinished => exact h1.followedBy h2

theorem freezeOne_trace (g : Globals) (hg : g.NoFreezeFlag = false) (conn : Conn)
    (fuel : Nat) (p : partitionDescribe) (w : World) :
    ∃ seg, (freezeOne g conn fuel p w).2.trace = w.trace ++ Event.exec (alterText p) :: seg ∧
      ∀ e ∈ seg, e.isStatement = false := by
  obtain ⟨seg, hseg, hok⟩ := (freezeOne_fsOnly g hg conn fuel p w).2
  refine ⟨seg, ?_, fun e he => ?_⟩
  · rw [hseg, ← freezeStatement_eq]
    simp
  · simpa [notStatement] using hok e he

/-- C2: with the dry-run flag set, `FreezePartitions.Run` returns no error,
leaves the filesystem exactly as it was, and adds to the trace one log line
per partition and nothing else: no statement is executed on the connection and
no filesystem call is made. -/
theorem freeze_dry_run_touches_nothing (g : Globals) (hg : g.NoFreezeFlag = true) (conn : Conn)
    (fuel : Nat) (fz : FreezePartitions) (w : World) :
    (FreezePartitions.Run fz g conn fuel w).1 = .ret none ∧
    (FreezePartitions.Run fz g conn fuel w).2.fs = w.fs ∧
    (FreezePartitions.Run fz g conn fuel w).2.trace = w.trace ++ fz.Partitions.map dryRunLine ∧
    (∀ e ∈ fz.Partitions.map dryRunLine,
      e.isStatement = false ∧ e.isFilesystem = false) := by
  unfold FreezePartitions.Run
  rw [freezeEach_dryRun g hg]
  refine ⟨rfl, rfl, rfl, ?_⟩
  intro e he
  obtain ⟨p, _, rfl⟩ := List.mem_map.1 he
  exact ⟨rfl, rfl⟩

theorem freeze_dry_run_touches_nothing_witness :
    (FreezePartitions.Run { Partitions := [eventsPartition] }
        { NoFreezeFlag := true, SourceDirectory := "/src", DestinationDirectory := "/dst" }
        quietConn 0 emptyWorld).2.trace = [dryRunLine eventsPartition] :=
  (freeze_dry_run_touches_nothing
    { NoFreezeFlag := true, SourceDirectory := "/src", DestinationDirectory := "/dst" } rfl
    quietConn 0 { Partitions := [eventsPartition] } emptyWorld).2.2.1

theorem freezeEach_statements (g : Globals) (hg : g.NoFreezeFlag = false) (conn : Conn)
    (fuel : Nat) (ps : List partitionDescribe) (w : World) :
    ∃ segs : List (List Event),
      segs.length ≤ ps.length ∧
      (∀ seg ∈ segs, ∀ e ∈ seg, e.isStatement = false) ∧
      (freezeEach g conn fuel ps w).2.trace =
        w.trace ++ (List.zipWith (fun p seg => Event.exec (alterText p) :: seg) ps segs).flatten ∧
      ((freezeEach g conn fuel ps w).1 = .ret none → segs.length = ps.length) := by
  induction ps generalizing w with
  | nil => exact ⟨[], by simp, by simp, by simp [freezeEach], by simp⟩
  | cons p rest ih =>
    obtain ⟨seg, hseg, hok⟩ := freezeOne_trace g hg conn fuel p w
    unfold freezeEach
    rcases hr : freezeOne g conn fuel p w with ⟨o, w1⟩
    rw [hr] at hseg
    simp only at hseg
    have hstop : ∀ o1 : Outcome (Option GoError), o1 ≠ .ret none →
        ∃ segs : List (List Event),
          segs.length ≤ (p :: rest).length ∧
          (∀ seg ∈ segs, ∀ e ∈ seg, e.isStatement = false) ∧
          w1.trace = w.trace ++
            (List.zipWith (fun p seg => Event.exec (alterText p) :: seg) (p :: rest) segs).flatten ∧
          (o1 = .ret none → segs.length = (p :: rest).length) := by
      intro o1 ho1
      refine ⟨[seg], by simp, ?_, by simpa using hseg, fun h => absurd h ho1⟩
      intro s hs
      rw [List.mem_singleton.1 hs]
      exact hok
    cases o with
    | ret v =>
      cases v with
      | none =>
        obtain ⟨segs, hlen, hall, htr, hfull⟩ := ih w1
        refine ⟨seg :: segs, by simpa using hlen, ?_, ?_, ?_⟩
        · intro s hs
          rcases List.mem_cons.1 hs with h | h
          · rw [h]; exact hok
          · exact hall s h
        · simp only at htr ⊢
          rw [htr, hseg]
          simp
        · intro h
          simpa using hfull h
      | some err => exact hstop _ (by simp)
    | fatal => exact hstop _ (by simp)
    | unfinished => exact hstop _ (by simp)

theorem Event.isExec_of_not_statement {e : Event} (h : e.isStatement = false) :
    e.isExec = false := by
  cases e <;> first | rfl | exact h

theorem execs_of_segments (ps : List partitionDescribe) (segs : List (List Event))
    (hlen : segs.length ≤ ps.length)
    (hall : ∀ seg ∈ segs, ∀ e ∈ seg, e.isStatement = false) :
    ((List.zipWith (fun p seg => Event.exec (alterText p) :: seg) ps segs).flatten).filter
        Event.isExec =
      (ps.take segs.length).map (fun p => Event.exec (alterText p)) := by
  induction ps generalizing segs with
  | nil => cases segs <;> simp
  | cons p rest ih =>
    cases segs with
    | nil => simp
    | cons seg segs =>
      have hseg : seg.filter Event.isExec = [] := by
        rw [List.filter_eq_nil_iff]
        intro e he
        have h1 := Event.isExec_of_not_statement (hall seg (List.mem_cons_self _ _) e he)
        simp [h1]
      have := ih segs (by simpa using hlen) (fun s hs => hall s (List.mem_cons_of_mem _ hs))
      simp [List.filter_cons, Event.isExec, hseg, this]

/-- C4: in a run that is not a dry run, the trace grows by one block per
partition reached, in the order the partitions were supplied: the block of a
partition starts with its statement, whose text is exactly
`ALTER TABLE <database>.<table> FREEZE PARTITION '<partition>';`, and the rest
of the block (the directory creation and the copies of that partition)
contains no statement.  So the statements executed are exactly those of the
partitions reached, one each and in order, and when the run returns without
error every partition was reached. -/
theorem freeze_statements_in_order (g : Globals) (hg : g.NoFreezeFlag = false) (conn : Conn)
    (fuel : Nat) (fz : FreezePartitions) (w : World) :
    ∃ segs : List (List Event),
      segs.length ≤ fz.Partitions.length ∧
      (∀ seg ∈ segs, ∀ e ∈ seg, e.isStatement = false) ∧
      (FreezePartitions.Run fz g conn fuel w).2.trace =
        w.trace ++ (List.zipWith (fun p seg => Event.exec (alterText p) :: seg)
          fz.Partitions segs).flatten ∧
      ((List.zipWith (fun p seg => Event.exec (alterText p) :: seg)
          fz.Partitions segs).flatten).filter Event.isExec =
        (fz.Partitions.take segs.length).map (fun p => Event.exec (alterText p)) ∧
      ((FreezePartitions.Run fz g conn fuel w).1 = .ret none →
        segs.length = fz.Partitions.length) := by
  obtain ⟨segs, hlen, hall, htr, hfull⟩ := freezeEach_statements g hg conn fuel fz.Partitions w
  exact ⟨segs, hlen, hall, htr, execs_of_segments _ _ hlen hall, hfull⟩

set_option maxRecDepth 100000 in
theorem freeze_statements_in_order_witness :
    crossedGlobals.NoFreezeFlag = false ∧
    ((FreezePartitions.Run { Partitions := [eventsPartition] } crossedGlobals quietConn 4
        liveWorld).2.trace.filter Event.isExec =
      [Event.exec "ALTER TABLE analytics.events FREEZE PARTITION '202401';"]) ∧
    ∃ segs : List (List Event),
      segs.length ≤ [eventsPartition].length ∧
      (∀ seg ∈ segs, ∀ e ∈ seg, e.isStatement = false) ∧
      (FreezePartitions.Run { Partitions := [eventsPartition] } crossedGlobals quietConn 4
          liveWorld).2.trace =
        liveWorld.trace ++ (List.zipWith (fun p seg => Event.exec (alterText p) :: seg)
          [eventsPartition] segs).flatten ∧
      ((List.zipWith (fun p seg => Event.exec (alterText p) :: seg)
          [eventsPartition] segs).flatten).filter Event.isExec =
        ([eventsPartition].take segs.length).map (fun p => Event.exec (alterText p)) ∧
      ((FreezePartitions.Run { Partitions := [eventsPartition] } crossedGlobals quietConn 4
          liveWorld).1 = .ret none → segs.length = [eventsPartition].length) :=
  ⟨rfl, by decide,
    freeze_statements_in_order crossedGlobals rfl quietConn 4
      { Partitions := [eventsPartition] } liveWorld⟩

theorem freezeEach_cons (g : Globals) (conn : Conn) (fuel : Nat) (p : partitionDescribe)
    (rest : List partitionDescribe) (w : World) :
    freezeEach g conn fuel (p :: rest) w =
      match freezeOne g conn fuel p w with
      | (.ret none, w1) => freezeEach g conn fuel rest w1
      | (o, w1) => (o, w1) := rfl

theorem freezeEach_append (g : Globals) (conn : Conn) (fuel : Nat)
    (before rest : List partitionDescribe) (w w1 : World)
    (h : freezeEach g conn fuel before w = (.ret none, w1)) :
    freezeEach g conn fuel (before ++ rest) w = freezeEach g conn fuel rest w1 := by
  induction before generalizing w with
  | nil =>
    simp only [freezeEach, Prod.mk.injEq, true_and] at h
    rw [h]; rfl
  | cons p ps ih =>
    simp only [List.cons_append]
    rw [freezeEach_cons] at h ⊢
    rcases hr : freezeOne g conn fuel p w with ⟨o, w2⟩
    rw [hr] at h
    cases o with
    | ret v =>
      cases v with
      | none => exact ih w2 h
      | some err => simp at h
    | fatal => simp at h
    | unfinished => simp at h

/-- When the loop body returns an error, the loop returns it at once,
whatever partitions follow. -/
theorem freezeEach_stops (g : Globals) (conn : Conn) (fuel : Nat) (p : partitionDescribe)
    (rest : List partitionDescribe) (w w1 : World) (err : GoError)
    (h : freezeOne g conn fuel p w = (.ret (some err), w1)) :
    freezeEach g conn fuel (p :: rest) w = (.ret (some err), w1) := by
  rw [freezeEach_cons, h]

/-- The directory reported by a failed `createDirectories` is one of the list,
and the events it added are directory creations of the list. -/
theorem createDirectories_failed {dirs : List String} {w : World} {err : GoError}
    (h : (createDirectories dirs w).1.1 = some err) :
    (createDirectories dirs w).1.2 ∈ dirs := by
  induction dirs generalizing w with
  | nil => simp [createDirectories] at h
  | cons dir rest ih =>
    unfold createDirectories at h ⊢
    rcases hr : osMkdir dir w with ⟨r, w1⟩
    rw [hr] at h
    cases r with
    | some e => simp
    | none => exact List.mem_cons_of_mem _ (ih h)

/-- C5: in a run that is not a dry run, let the partitions before index `i`
have been processed without error (the run over them returns `nil` in world
`w1`), and let the freeze statement of partition `i` fail, or succeed and be
followed by a failing directory creation.  Then `Run` returns that error; the
result does not depend on the partitions after `i`; after the statement of
partition `i` the trace holds only directory creations of that partition and
the log line naming the directory that failed, so no statement and no
filesystem call is made for a later partition; and the filesystem keeps every
file and directory it had after the partitions before `i` (exactly that
filesystem when it is the statement that fails). -/
theorem freeze_aborts_on_failure (g : Globals) (hg : g.NoFreezeFlag = false) (conn : Conn)
    (fuel : Nat) (before after : List partitionDescribe) (p : partitionDescribe)
    (w w1 : World) (err : GoError)
    (hbefore : FreezePartitions.Run { Partitions := before } g conn fuel w = (.ret none, w1))
    (hfail : conn.exec w1.trace (freezeStatement p) = some err ∨
      (conn.exec w1.trace (freezeStatement p) = none ∧
        (createDirectories (directoryList g.SourceDirectory p)
          (w1.emit (.exec (freezeStatement p)))).1.1 = some err)) :
    (FreezePartitions.Run { Partitions := before ++ p :: after } g conn fuel w).1 =
      .ret (some err) ∧
    FreezePartitions.Run { Partitions := before ++ p :: after } g conn fuel w =
      FreezePartitions.Run { Partitions := before ++ [p] } g conn fuel w ∧
    (∃ tail : List Event,
      (FreezePartitions.Run { Partitions := before ++ p :: after } g conn fuel w).2.trace =
        w1.trace ++ Event.exec (alterText p) :: tail ∧
      (∀ e ∈ tail, ∃ d ∈ directoryList g.SourceDirectory p,
        e = .mkdir d ∨ e = .logf .Error "can't create directory: %v" [.str d]) ∧
      (conn.exec w1.trace (freezeStatement p) = some err → tail = [])) ∧
    Keeps w1.fs (FreezePartitions.Run { Partitions := before ++ p :: after } g conn fuel w).2.fs ∧
    (conn.exec w1.trace (freezeStatement p) = some err →
      (FreezePartitions.Run { Partitions := before ++ p :: after } g conn fuel w).2.fs =
        w1.fs) := by
  unfold FreezePartitions.Run at hbefore ⊢
  simp only
  rw [freezeEach_append g conn fuel before (p :: after) w w1 hbefore,
    freezeEach_append g conn fuel before [p] w w1 hbefore]
  rcases hfail with hexec | ⟨hexec, hmk⟩
  · have hone : freezeOne g conn fuel p w1 =
        (.ret (some err), w1.emit (.exec (freezeStatement p))) := by
      simp [freezeOne, hg, dbExec, hexec]
    rw [freezeEach_stops g conn fuel p after w1 _ err hone,
      freezeEach_stops g conn fuel p [] w1 _ err hone]
    refine ⟨rfl, rfl, ⟨[], ?_, by simp, fun _ => rfl⟩, Keeps.same _, fun _ => rfl⟩
    simp [freezeStatement_eq]
  · obtain ⟨j, _, htrace, _⟩ := createDirectories_trace (directoryList g.SourceDirectory p)
      (w1.emit (.exec (freezeStatement p)))
    have hkeep := createDirectories_keeps (directoryList g.SourceDirectory p)
      (w1.emit (.exec (freezeStatement p)))
    have hmem := createDirectories_failed hmk
    rcases hr : createDirectories (directoryList g.SourceDirectory p)
      (w1.emit (.exec (freezeStatement p))) with ⟨⟨r, failDirectory⟩, w2⟩
    rw [hr] at hmk htrace hkeep hmem
    simp only at hmk htrace hkeep hmem
    subst hmk
    have hone : freezeOne g conn fuel p w1 =
        (.ret (some err),
          w2.emit (.logf .Error "can't create directory: %v" [.str failDirectory])) := by
      simp [freezeOne, hg, dbExec, hexec, hr]
    rw [freezeEach_stops g conn fuel p after w1 _ err hone,
      freezeEach_stops g conn fuel p [] w1 _ err hone]
    refine ⟨rfl, rfl, ⟨((directoryList g.SourceDirectory p).take j).map Event.mkdir ++
        [.logf .Error "can't create directory: %v" [.str failDirectory]], ?_, ?_, ?_⟩,
      hkeep, ?_⟩
    · simp [htrace, freezeStatement_eq]
    · intro e he
      rcases List.mem_append.1 he with h | h
      · obtain ⟨d, hd, rfl⟩ := List.mem_map.1 h
        exact ⟨d, List.mem_of_mem_take hd, Or.inl rfl⟩
      · rw [List.mem_singleton.1 h]
        exact ⟨failDirectory, hmem, Or.inr rfl⟩
    · intro h
      rw [hexec] at h
      cases h
    · intro h
      rw [hexec] at h
      cases h

set_option maxRecDepth 100000 in
theorem freeze_aborts_on_failure_witness :
    (FreezePartitions.Run { Partitions := [eventsPartition, eventsPartition, eventsPartition] }
        crossedGlobals quietConn 4 liveWorld).1 =
      .ret (some (.path "mkdir" "/dst/partitions" .EEXIST)) :=
  (freeze_aborts_on_failure crossedGlobals rfl quietConn 4 [eventsPartition] [eventsPartition]
    eventsPartition liveWorld
    (FreezePartitions.Run { Partitions := [eventsPartition] } crossedGlobals quietConn 4
      liveWorld).2
    (.path "mkdir" "/dst/partitions" .EEXIST)
    (Prod.ext (by decide) rfl) (Or.inr ⟨rfl, by decide⟩)).1

theorem createDirectories_cons (dir : String) (rest : List String) (w : World) :
    createDirectories (dir :: rest) w =
      match osMkdir dir w with
      | (some err, w1) => ((some err, dir), w1)
      | (none, w1) => createDirectories rest w1 := rfl

/-- What a loop body that went through without error has done. -/
theorem freezeOne_done {g : Globals} (hg : g.NoFreezeFlag = false) {conn : Conn} {fuel : Nat}
    {p : partitionDescribe} {w w1 : World}
    (h : freezeOne g conn fuel p w = (.ret none, w1)) :
    conn.exec w.trace (freezeStatement p) = none ∧
    ∃ w2 w3 name,
      createDirectories (directoryList g.SourceDirectory p)
        (w.emit (.exec (freezeStatement p))) = ((none, name), w2) ∧
      copyDirectory fuel (g.DestinationDirectory ++ "/shadow/1/data/" ++ p.databaseName)
        (g.SourceDirectory ++ "/partitions/" ++ p.databaseName) w2 = (.ret none, w3) ∧
      copyDirectory fuel (g.DestinationDirectory ++ "/metadata/" ++ p.databaseName)
        (g.SourceDirectory ++ "/metadata/" ++ p.databaseName) w3 = (.ret none, w1) := by
  unfold freezeOne at h
  simp only [hg, dbExec, Bool.false_eq_true, if_false] at h
  cases hexec : conn.exec w.trace (freezeStatement p) with
  | some err => simp [hexec] at h
  | none =>
    refine ⟨rfl, ?_⟩
    simp only [hexec] at h
    rcases hr : createDirectories (directoryList g.SourceDirectory p)
      (w.emit (.exec (freezeStatement p))) with ⟨⟨r, name⟩, w2⟩
    rw [hr] at h
    cases r with
    | some err => simp at h
    | none =>
      simp only at h
      rcases hc : copyDirectory fuel
        (g.DestinationDirectory ++ "/shadow/1/data/" ++ p.databaseName)
        (g.SourceDirectory ++ "/partitions/" ++ p.databaseName) w2 with ⟨o, w3⟩
      rw [hc] at h
      cases o with
      | ret v =>
        cases v with
        | none => exact ⟨w2, w3, name, rfl, hc, h⟩
        | some err => simp at h
      | fatal => simp at h
      | unfinished => simp at h

/-- C9: in a run that is not a dry run over two or more partitions, let the
first partition be fully processed (its statement, its four directory
creations and its two copies all succeed: the run over it alone returns
`nil`), and let the statement of the second partition succeed.  Then the
directory `<root>/partitions` did not exist at the start and was created for
the first partition; the run executes the statement of the second partition,
tries to create `<root>/partitions` again, fails with `EEXIST`, logs the
directory and returns that error.  The filesystem is the one the first
partition left: no copy is made for the second partition, and nothing at all
is done for the partitions after it.  Here `<root>` is the directory the
program creates the archive under. -/
theorem second_partition_fails_on_existing_directory (g : Globals)
    (hg : g.NoFreezeFlag = false) (conn : Conn) (fuel : Nat) (p1 p2 : partitionDescribe)
    (rest : List partitionDescribe) (w w1 : World)
    (hfirst : FreezePartitions.Run { Partitions := [p1] } g conn fuel w = (.ret none, w1))
    (hexec : conn.exec w1.trace (freezeStatement p2) = none) :
    FreezePartitions.Run { Partitions := p1 :: p2 :: rest } g conn fuel w =
      (.ret (some (.path "mkdir" (g.SourceDirectory ++ "/partitions") .EEXIST)),
        { fs := w1.fs,
          trace := w1.trace ++
            [ .exec (alterText p2),
              .mkdir (g.SourceDirectory ++ "/partitions"),
              .logf .Error "can't create directory: %v"
                [.str (g.SourceDirectory ++ "/partitions")] ] }) ∧
    ∃ path es, resolve (g.SourceDirectory ++ "/partitions") = some path ∧
      w.fs.get path = none ∧ w1.fs.get path = some (.dir es) := by
  unfold FreezePartitions.Run at hfirst ⊢
  simp only at hfirst ⊢
  have hone : freezeOne g conn fuel p1 w = (.ret none, w1) := by
    rw [freezeEach_cons] at hfirst
    rcases hr : freezeOne g conn fuel p1 w with ⟨o, w2⟩
    rw [hr] at hfirst
    cases o with
    | ret v =>
      cases v with
      | none => simpa [freezeEach] using hfirst
      | some err => simp at hfirst
    | fatal => simp at hfirst
    | unfinished => simp at hfirst
  obtain ⟨_, w2, w3, name, hmk, hc1, hc2⟩ := freezeOne_done hg hone
  -- the first directory of the list was created, and is still there afterwards
  have hdl : directoryList g.SourceDirectory p1 =
      (g.SourceDirectory ++ "/partitions") ::
        [ g.SourceDirectory ++ "/partitions/" ++ p1.databaseName,
          g.SourceDirectory ++ "/metadata",
          g.SourceDirectory ++ "/metadata/" ++ p1.databaseName ] := rfl
  rw [hdl] at hmk
  have hmk1 : (createDirectories ((g.SourceDirectory ++ "/partitions") ::
        [ g.SourceDirectory ++ "/partitions/" ++ p1.databaseName,
          g.SourceDirectory ++ "/metadata",
          g.SourceDirectory ++ "/metadata/" ++ p1.databaseName ])
      (w.emit (.exec (freezeStatement p1)))).1.1 = none := by rw [hmk]
  obtain ⟨path, es, hres, hget⟩ := createDirectories_first hmk1
  rw [hmk] at hget
  have hfresh : w.fs.get path = none := by
    have h0 : (osMkdir (g.SourceDirectory ++ "/partitions")
        (w.emit (.exec (freezeStatement p1)))).1 = none := by
      have := hmk1
      unfold createDirectories at this
      rcases hr : osMkdir (g.SourceDirectory ++ "/partitions")
        (w.emit (.exec (freezeStatement p1))) with ⟨r, w4⟩
      rw [hr] at this
      cases r with
      | none => rfl
      | some e => simp at this
    cases hm : w.fs.mkdir path with
    | error e => simp [osMkdir, hres, hm] at h0
    | ok fs1 => exact (Node.mkdir_ok hm).1
  have h3 := (copyDirectory_fsOnly fuel
    (g.DestinationDirectory ++ "/shadow/1/data/" ++ p1.databaseName)
    (g.SourceDirectory ++ "/partitions/" ++ p1.databaseName) w2).1
  rw [hc1] at h3
  have h4 := (copyDirectory_fsOnly fuel
    (g.DestinationDirectory ++ "/metadata/" ++ p1.databaseName)
    (g.SourceDirectory ++ "/metadata/" ++ p1.databaseName) w3).1
  rw [hc2] at h4
  obtain ⟨es1, hes1⟩ := (h3.thenDirs h4) path es hget
  refine ⟨?_, path, es1, hres, hfresh, hes1⟩
  -- the second partition
  have hmk2 : osMkdir (g.SourceDirectory ++ "/partitions")
      (w1.emit (.exec (freezeStatement p2))) =
      (some (.path "mkdir" (g.SourceDirectory ++ "/partitions") .EEXIST),
        (w1.emit (.exec (freezeStatement p2))).emit
          (.mkdir (g.SourceDirectory ++ "/partitions"))) :=
    osMkdir_exists hres (by simpa using hes1)
  have htwo : freezeOne g conn fuel p2 w1 =
      (.ret (some (.path "mkdir" (g.SourceDirectory ++ "/partitions") .EEXIST)),
        { fs := w1.fs,
          trace := w1.trace ++
            [ .exec (alterText p2),
              .mkdir (g.SourceDirectory ++ "/partitions"),
              .logf .Error "can't create directory: %v"
                [.str (g.SourceDirectory ++ "/partitions")] ] }) := by
    unfold freezeOne
    simp only [hg, dbExec, hexec, Bool.false_eq_true, if_false]
    have hdl2 : directoryList g.SourceDirectory p2 =
        (g.SourceDirectory ++ "/partitions") ::
          [ g.SourceDirectory ++ "/partitions/" ++ p2.databaseName,
            g.SourceDirectory ++ "/metadata",
            g.SourceDirectory ++ "/metadata/" ++ p2.databaseName ] := rfl
    rw [hdl2, createDirectories_cons, hmk2]
    simp [World.emit, freezeStatement_eq]
  rw [freezeEach_cons, hone]
  simp only
  exact freezeEach_stops g conn fuel p2 rest w1 _ _ htwo

set_option maxRecDepth 100000 in
theorem second_partition_fails_on_existing_directory_witness :
    liveWorld.fs.get ["dst", "partitions"] = none ∧
    (FreezePartitions.Run { Partitions := [eventsPartition, eventsPartition] }
        crossedGlobals quietConn 4 liveWorld).1 =
      .ret (some (.path "mkdir" "/dst/partitions" .EEXIST)) :=
  ⟨rfl, congrArg Prod.fst
    (second_partition_fails_on_existing_directory crossedGlobals rfl quietConn 4
      eventsPartition eventsPartition [] liveWorld
      (FreezePartitions.Run { Partitions := [eventsPartition] } crossedGlobals quietConn 4
        liveWorld).2
      (Prod.ext (by decide) rfl) rfl).1⟩

/-! ## The command-line driver -/

theorem logFatalf_idle (level : Level) (format : String) (args : List Arg) (w : World) :
    TraceAdds idleEvent w (logFatalf level format args w) :=
  (TraceAdds.event w (.logf level format args) rfl).append (TraceAdds.event _ (.exit 1) rfl)

theorem logFatalln_idle (level : Level) (args : List Arg) (w : World) :
    TraceAdds idleEvent w (logFatalln level args w) :=
  (TraceAdds.event w (.logln level args) rfl).append (TraceAdds.event _ (.exit 1) rfl)

theorem mainDone_idle (w : World) : TraceAdds idleEvent w (mainDone w).2 :=
  (TraceAdds.event w (.println "done") rfl).append (TraceAdds.event _ .close rfl)

theorem main_quiet_outside_backup (conn : Conn) (fuel : Nat) (args : Flags) (w : World)
    (hmode : ¬ (args.argBackup = true ∧ args.argRestore = false)) :
    (main conn fuel args w).2.fs = w.fs ∧ TraceAdds idleEvent w (main conn fuel args w).2 := by
  have hdial : TraceAdds idleEvent w (w.emit (.dial (ClickhouseConnectionString args))) :=
    TraceAdds.event w (.dial (ClickhouseConnectionString args)) rfl
  have hping : TraceAdds idleEvent w ((w.emit (.dial (ClickhouseConnectionString args))).emit .ping) :=
    hdial.append (TraceAdds.event (w.emit (.dial (ClickhouseConnectionString args))) .ping rfl)
  unfold main
  simp only
  cases conn.dial (ClickhouseConnectionString args) with
  | some err => exact ⟨rfl, hdial.append (logFatalf_idle _ _ _ _)⟩
  | none =>
    simp only
    cases hp : conn.ping (w.emit (.dial (ClickhouseConnectionString args))).trace with
    | some err =>
      cases err with
      | exception code message stackTrace => exact ⟨rfl, hping.append (logFatalf_idle _ _ _ _)⟩
      | path op p e => exact ⟨rfl, hping.append (logFatalln_idle _ _ _)⟩
      | driver msg => exact ⟨rfl, hping.append (logFatalln_idle _ _ _)⟩
    | none =>
      simp only
      unfold mainDispatch
      cases hb : args.argBackup <;> cases hr : args.argRestore
      · exact ⟨rfl, hping.append ((TraceAdds.event _ (.println _) rfl).append (mainDone_idle _))⟩
      · exact ⟨rfl, hping.append ((TraceAdds.event _ (.println _) rfl).append (mainDone_idle _))⟩
      · exact absurd ⟨hb, hr⟩ hmode
      · exact ⟨rfl, hping.append (logFatalln_idle _ _ _)⟩

theorem nested_main_outside_backup {PD : Type} (pk pk1 : clickhousedump.Packages PD)
    (conn : Conn) (fuel : Nat) (args : Flags) (w : World)
    (hdir : pk1.IsDirectoryInListExist = pk.IsDirectoryInListExist)
    (hrestore : pk1.RestoreDatabaseRun = pk.RestoreDatabaseRun)
    (hmode : ¬ (args.argBackup = true ∧ args.argRestore = false)) :
    clickhousedump.main pk1 conn fuel args w = clickhousedump.main pk conn fuel args w := by
  unfold clickhousedump.main
  simp only
  cases conn.dial (ClickhouseConnectionString args) with
  | some err => rfl
  | none =>
    simp only
    cases hp : conn.ping (w.emit (.dial (ClickhouseConnectionString args))).trace with
    | some err => cases err <;> rfl
    | none =>
      simp only
      unfold clickhousedump.mainDispatch
      cases hb : args.argBackup <;> cases hr : args.argRestore
      · rfl
      · simp only [clickhousedump.mainRestore, hdir, hrestore]
        rfl
      · exact absurd ⟨hb, hr⟩ hmode
      · rfl

/-- C8: the mode dispatch of both entry points.  With `--backup` and
`--restore` both set it writes the fatal line "Run in only one mode (backup
or restore)" and the process exits; with neither set it prints the mode prompt
and "done" and returns.  Nothing else happens in either case: no catalog
query, no freeze statement, no filesystem call.  For the whole of `main`,
which reaches the dispatch once the connection is open and answers the ping,
the complete trace of such a run is the dial, the ping and those lines.
Outside backup mode (`--backup` set, `--restore` not) `main` of `main.go`
issues no statement and makes no filesystem call at all, whatever the
connection answers, and `main` of the nested entry point does not depend on
the partition query and the freeze of `partutils`. -/
theorem mode_dispatch {PD : Type} (pk : clickhousedump.Packages PD) (g : Globals)
    (conn : Conn) (fuel : Nat) (args : Flags) (w : World) :
    (args.argBackup = true → args.argRestore = true →
      mainDispatch g conn fuel args w =
        (.fatal, { fs := w.fs, trace := w.trace ++
          [.logln .Error [.str "Run in only one mode (backup or restore)"], .exit 1] }) ∧
      clickhousedump.mainDispatch pk conn fuel args w =
        (.fatal, { fs := w.fs, trace := w.trace ++
          [.logln .Error [.str "Run in only one mode (backup or restore)"], .exit 1] })) ∧
    (args.argBackup = false → args.argRestore = false →
      mainDispatch g conn fuel args w =
        (.ret (), { fs := w.fs, trace := w.trace ++
          [.println "Choose mode (restore tor backup)", .println "done", .close] }) ∧
      clickhousedump.mainDispatch pk conn fuel args w =
        (.ret (), { fs := w.fs, trace := w.trace ++
          [.println "Choose mode (restore tor backup)", .println "done", .close] })) ∧
    (conn.dial (ClickhouseConnectionString args) = none →
      conn.ping (w.trace ++ [.dial (ClickhouseConnectionString args)]) = none →
      (args.argBackup = true → args.argRestore = true →
        main conn fuel args w = (.fatal, onlyOneModeWorld args w) ∧
        clickhousedump.main pk conn fuel args w = (.fatal, onlyOneModeWorld args w)) ∧
      (args.argBackup = false → args.argRestore = false →
        main conn fuel args w = (.ret (), chooseModeWorld args w) ∧
        clickhousedump.main pk conn fuel args w = (.ret (), chooseModeWorld args w))) ∧
    (∀ e ∈ (onlyOneModeWorld args w).trace.drop w.trace.length, idleEvent e = true) ∧
    (∀ e ∈ (chooseModeWorld args w).trace.drop w.trace.length, idleEvent e = true) ∧
    (¬ (args.argBackup = true ∧ args.argRestore = false) →
      (main conn fuel args w).2.fs = w.fs ∧
      TraceAdds idleEvent w (main conn fuel args w).2 ∧
      ∀ pk1 : clickhousedump.Packages PD,
        pk1.IsDirectoryInListExist = pk.IsDirectoryInListExist →
        pk1.RestoreDatabaseRun = pk.RestoreDatabaseRun →
        clickhousedump.main pk1 conn fuel args w = clickhousedump.main pk conn fuel args w) := by
  refine ⟨?_, ?_, ?_, ?_, ?_, ?_⟩
  · intro hb hr
    constructor
    · simp [mainDispatch, hb, hr, logFatalln, World.emit]
    · simp [clickhousedump.mainDispatch, hb, hr, logFatalln, World.emit]
  · intro hb hr
    constructor
    · simp [mainDispatch, hb, hr, mainDone, World.emit]
    · simp [clickhousedump.mainDispatch, hb, hr, clickhousedump.mainDone, World.emit]
  · intro hdial hping
    refine ⟨?_, ?_⟩
    · intro hb hr
      constructor
      · simp [main, hdial, World.emit, hping, mainDispatch, hb, hr, logFatalln,
          onlyOneModeWorld]
      · simp [clickhousedump.main, hdial, World.emit, hping, clickhousedump.mainDispatch, hb, hr,
          logFatalln, onlyOneModeWorld]
    · intro hb hr
      constructor
      · simp [main, hdial, World.emit, hping, mainDispatch, hb, hr, mainDone,
          chooseModeWorld]
      · simp [clickhousedump.main, hdial, World.emit, hping, clickhousedump.mainDispatch, hb, hr,
          clickhousedump.mainDone, chooseModeWorld]
  · simp [onlyOneModeWorld, idleEvent, Event.isStatement, Event.isFilesystem]
  · simp [chooseModeWorld, idleEvent, Event.isStatement, Event.isFilesystem]
  · intro hmode
    obtain ⟨hfs, hseg⟩ := main_quiet_outside_backup conn fuel args w hmode
    exact ⟨hfs, hseg, fun pk1 hdir hrestore =>
      nested_main_outside_backup pk pk1 conn fuel args w hdir hrestore hmode⟩

set_option maxRecDepth 100000 in
theorem mode_dispatch_witness :
    quietConn.dial (ClickhouseConnectionString bothFlags) = none ∧
    main quietConn 0 bothFlags emptyWorld =
      (.fatal,
        { fs := .dir [],
          trace := [ .dial "tcp://127.0.0.1:9000?username=&compress=true", .ping,
            .logln .Error [.str "Run in only one mode (backup or restore)"], .exit 1 ] }) :=
  ⟨rfl, ((mode_dispatch standInPackages scenarioGlobals quietConn 0 bothFlags
    emptyWorld).2.2.1 rfl rfl).1 rfl rfl |>.1⟩

/-- C3, the run of the scenario (source root `/src`, destination root `/dst`,
no dry run, the partition analytics/events/202401) over a data directory
`/src` holding the frozen part and an empty `/dst`: the statement is executed,
the four directories are created under `/src`, not under `/dst`, and the
first copy looks for the frozen data under `/dst`, where there is none, so
the run returns that error.  Nothing is created or written under `/dst`. -/
theorem scenario_creates_under_source_reads_under_destination :
    FreezePartitions.Run { Partitions := [eventsPartition] } scenarioGlobals quietConn 4
        { fs := bareFs, trace := [] } =
      (.ret (some (.path "stat" "/dst/shadow/1/data/analytics" .ENOENT)),
        { fs := bareFsAfter,
          trace := [
            .exec "ALTER TABLE analytics.events FREEZE PARTITION '202401';",
            .mkdir "/src/partitions",
            .mkdir "/src/partitions/analytics",
            .mkdir "/src/metadata",
            .mkdir "/src/metadata/analytics",
            .stat "/dst/shadow/1/data/analytics" ] }) ∧
    bareFsAfter.get ["dst"] = some (.dir []) ∧
    bareFsAfter.get ["src", "partitions", "analytics"] = some (.dir []) := by
  refine ⟨?_, rfl, rfl⟩
  rfl

/-- With `-db` given, the partitions handed on are the result of the
partition query for that database. -/
theorem mainPartitionsList_named (conn : Conn) (args : Flags) (w : World)
    (hdb : args.argDataBase ≠ "") :
    (mainPartitionsList conn args w).1 =
      (GetPartitions.Run { Database := args.argDataBase, Result := [] } conn w).1.2.Result := by
  unfold mainPartitionsList
  simp only [hdb, if_false]
  rcases GetPartitions.Run { Database := args.argDataBase, Result := [] } conn w with
    ⟨⟨err, gp⟩, w1⟩
  cases err <;> rfl

/-- Without `-db`, the loop over the databases ends with the result of the
partition query for the last database only. -/
theorem mainDatabasesLoop_last (conn : Conn) (before : List dataBase) (last : dataBase)
    (partitionsList : List partitionDescribe) (w : World) :
    ∃ w1, (mainDatabasesLoop conn (before ++ [last]) partitionsList w).1 =
      (GetPartitions.Run { Database := last.name, Result := [] } conn w1).1.2.Result := by
  induction before generalizing partitionsList w with
  | nil =>
    refine ⟨w, ?_⟩
    simp only [List.nil_append, mainDatabasesLoop]
    rcases GetPartitions.Run { Database := last.name, Result := [] } conn w with
      ⟨⟨err, gp⟩, w1⟩
    cases err <;> rfl
  | cons database rest ih =>
    simp only [List.cons_append, mainDatabasesLoop]
    rcases GetPartitions.Run { Database := database.name, Result := [] } conn w with
      ⟨⟨err, gp⟩, w1⟩
    cases err with
    | none => exact ih gp.Result w1
    | some e => exact ih gp.Result _

/-- C7, a backup run without `-db` against a server with the databases
`analytics` and `logs`.  In `main.go` the partitions handed to
`FreezePartitions` are those of `logs` alone: the partitions of `analytics`
are queried and then overwritten.  In the nested entry point both databases
are queried and no statement is executed at all: nothing is handed to the
freeze. -/
theorem backup_without_db_does_not_freeze_every_database :
    (mainPartitionsList twoDatabasesConn backupFlags liveWorld).1 =
      [{ databaseName := "logs", tableName := "requests", partID := "202402" }] ∧
    (clickhousedump.main standInPackages twoDatabasesConn 4 backupFlags liveWorld).2.trace.filter
        Event.isStatement =
      [ .select "show databases;",
        .select (partitionQuery "analytics"),
        .select (partitionQuery "logs") ] ∧
    (clickhousedump.main standInPackages twoDatabasesConn 4 backupFlags liveWorld).2.fs =
      liveFs := by
  refine ⟨?_, ?_, ?_⟩
  · decide
  · decide
  · rfl

/-! ## The directory copier: updates at paths apart from each other -/

theorem Apart.cons_cons {c : String} {p q : Path} (h : Apart (c :: p) (c :: q)) : Apart p q :=
  ⟨fun hp => h.1 ((List.prefix_cons_inj c).2 hp), fun hq => h.2 ((List.prefix_cons_inj c).2 hq)⟩

theorem Apart.ne_nil_left {p q : Path} (h : Apart p q) : p ≠ [] := by
  intro hp
  exact h.1 (hp ▸ List.nil_prefix)

theorem Apart.ne_nil_right {p q : Path} (h : Apart p q) : q ≠ [] := by
  intro hq
  exact h.2 (hq ▸ List.nil_prefix)

theorem Apart.swap {p q : Path} (h : Apart p q) : Apart q p := ⟨h.2, h.1⟩

theorem Apart.snoc_snoc {p q : Path} (h : Apart p q) (a : String) :
    Apart (p ++ [a]) (q ++ [a]) := by
  constructor
  · intro hpq
    rcases List.prefix_concat_iff.1 (by simpa using hpq) with h1 | h1
    · have := List.append_cancel_right h1
      exact h.1 (this ▸ List.prefix_refl _)
    · exact h.1 ((List.prefix_append p [a]).trans h1)
  · intro hqp
    rcases List.prefix_concat_iff.1 (by simpa using hqp) with h1 | h1
    · have := List.append_cancel_right h1
      exact h.2 (this ▸ List.prefix_refl _)
    · exact h.2 ((List.prefix_append q [a]).trans h1)

theorem Node.get_dir_nil_cons (c : String) (r : Path) : (Node.dir []).get (c :: r) = none := rfl

theorem lookupEntry_append_ne {k c : String} (x : Node) (es : List (String × Node))
    (hne : k ≠ c) : lookupEntry k (es ++ [(c, x)]) = lookupEntry k es := by
  induction es with
  | nil =>
    have : ¬ c = k := fun h => hne h.symm
    simp [lookupEntry, this]
  | cons e es ih =>
    obtain ⟨a, b⟩ := e
    simp only [List.cons_append, lookupEntry]
    by_cases hak : a = k
    · simp [hak]
    · simp only [hak, if_false]
      exact ih

/-- An update at `p` is not seen at a path apart from `p`. -/
theorem Node.get_set_apart {fs fs1 : Node} {p q : Path} {x : Node}
    (hset : fs.set p x = some fs1) (hpq : Apart p q) : fs1.get q = fs.get q := by
  induction p generalizing fs fs1 q with
  | nil => exact absurd rfl hpq.ne_nil_left
  | cons c rest ih =>
    cases fs with
    | file d => simp [Node.set_file_cons] at hset
    | dir es =>
      cases q with
      | nil => exact absurd rfl hpq.ne_nil_right
      | cons k qs =>
        cases hlook : lookupEntry c es with
        | some n =>
          rw [Node.set_dir_cons_some rest x hlook] at hset
          simp only [Option.map_eq_some'] at hset
          obtain ⟨m, hm, rfl⟩ := hset
          simp only [Node.get_dir_cons]
          by_cases hk : k = c
          · subst hk
            rw [lookupEntry_replaceEntry_self m hlook, hlook]
            exact ih hm hpq.cons_cons
          · rw [lookupEntry_replaceEntry_ne m es hk]
        | none =>
          cases rest with
          | nil =>
            rw [Node.set_dir_cons_none_nil x hlook] at hset
            cases hset
            simp only [Node.get_dir_cons]
            by_cases hk : k = c
            · subst hk
              exact absurd ((List.prefix_cons_inj k).2 List.nil_prefix) hpq.1
            · rw [lookupEntry_append_ne x es hk]
          | cons d r => simp [Node.set_dir_cons_none_cons d r x hlook] at hset

theorem Node.get_mkdirAll_apart {fs fs1 : Node} {p q : Path}
    (hmk : fs.mkdirAll p = some fs1) (hpq : Apart p q) : fs1.get q = fs.get q := by
  induction p generalizing fs fs1 q with
  | nil => exact absurd rfl hpq.ne_nil_left
  | cons c rest ih =>
    cases fs with
    | file d => simp [Node.mkdirAll_file] at hmk
    | dir es =>
      cases q with
      | nil => exact absurd rfl hpq.ne_nil_right
      | cons k qs =>
        cases hlook : lookupEntry c es with
        | some n =>
          rw [Node.mkdirAll_dir_cons_some rest hlook] at hmk
          simp only [Option.map_eq_some'] at hmk
          obtain ⟨m, hm, rfl⟩ := hmk
          simp only [Node.get_dir_cons]
          by_cases hk : k = c
          · subst hk
            rw [lookupEntry_replaceEntry_self m hlook, hlook]
            exact ih hm hpq.cons_cons
          · rw [lookupEntry_replaceEntry_ne m es hk]
        | none =>
          rw [Node.mkdirAll_dir_cons_none rest hlook] at hmk
          simp only [Option.map_eq_some'] at hmk
          obtain ⟨m, hm, rfl⟩ := hmk
          simp only [Node.get_dir_cons]
          by_cases hk : k = c
          · subst hk
            rw [lookupEntry_append_of_none _ hlook, hlook]
            simp only [lookupEntry, if_true, Option.some_bind, Option.none_bind]
            have hrq := hpq.cons_cons
            rw [ih hm hrq]
            cases qs with
            | nil => exact absurd rfl hrq.ne_nil_right
            | cons a b => rfl
          · rw [lookupEntry_append_ne m es hk]

/-- An update at an existing path succeeds. -/
theorem Node.set_of_get {fs n : Node} {p : Path} (x : Node) (hget : fs.get p = some n) :
    ∃ fs1, fs.set p x = some fs1 := by
  induction p generalizing fs with
  | nil => exact ⟨x, Node.set_nil _ _⟩
  | cons c rest ih =>
    cases fs with
    | file d => simp [Node.get_file_cons] at hget
    | dir es =>
      rw [Node.get_dir_cons] at hget
      cases hlook : lookupEntry c es with
      | none => simp [hlook] at hget
      | some m =>
        rw [hlook] at hget
        obtain ⟨fs2, h2⟩ := ih hget
        exact ⟨_, by rw [Node.set_dir_cons_some rest x hlook, h2]; rfl⟩

/-- A second update at the same path replaces the first. -/
theorem Node.set_set_same {fs fs1 : Node} {p : Path} {x : Node} (y : Node)
    (hset : fs.set p x = some fs1) : fs1.set p y = fs.set p y := by
  induction p generalizing fs fs1 with
  | nil => simp [Node.set_nil]
  | cons c rest ih =>
    cases fs with
    | file d => simp [Node.set_file_cons] at hset
    | dir es =>
      cases hlook : lookupEntry c es with
      | some n =>
        rw [Node.set_dir_cons_some rest x hlook] at hset
        simp only [Option.map_eq_some'] at hset
        obtain ⟨m, hm, rfl⟩ := hset
        rw [Node.set_dir_cons_some rest y (lookupEntry_replaceEntry_self m hlook),
          Node.set_dir_cons_some rest y hlook, ih hm]
        simp [replaceEntry_replaceEntry]
      | none =>
        cases rest with
        | nil =>
          rw [Node.set_dir_cons_none_nil x hlook] at hset
          cases hset
          have h1 : lookupEntry c (es ++ [(c, x)]) = some x := by
            rw [lookupEntry_append_of_none _ hlook]
            simp [lookupEntry]
          rw [Node.set_dir_cons_some [] y h1, Node.set_dir_cons_none_nil y hlook, Node.set_nil]
          simp [replaceEntry_append_of_none _ _ hlook, replaceEntry]
        | cons d r => simp [Node.set_dir_cons_none_cons d r x hlook] at hset

/-- Adding an entry to a directory that was put at `p` is putting the larger
directory at `p`. -/
theorem Node.set_set_child {fs fs1 : Node} {p : Path} {es0 : List (String × Node)}
    {name : String} (x : Node) (hset : fs.set p (.dir es0) = some fs1)
    (hnew : lookupEntry name es0 = none) :
    fs1.set (p ++ [name]) x = fs.set p (.dir (es0 ++ [(name, x)])) := by
  induction p generalizing fs fs1 with
  | nil =>
    rw [Node.set_nil] at hset
    cases hset
    simp [Node.set_dir_cons_none_nil x hnew, Node.set_nil]
  | cons c rest ih =>
    cases fs with
    | file d => simp [Node.set_file_cons] at hset
    | dir es =>
      cases hlook : lookupEntry c es with
      | some n =>
        rw [Node.set_dir_cons_some rest _ hlook] at hset
        simp only [Option.map_eq_some'] at hset
        obtain ⟨m, hm, rfl⟩ := hset
        rw [List.cons_append,
          Node.set_dir_cons_some (rest ++ [name]) x (lookupEntry_replaceEntry_self m hlook),
          Node.set_dir_cons_some rest _ hlook, ih hm]
        simp [replaceEntry_replaceEntry]
      | none =>
        cases rest with
        | nil =>
          rw [Node.set_dir_cons_none_nil _ hlook] at hset
          cases hset
          have h1 : lookupEntry c (es ++ [(c, Node.dir es0)]) = some (Node.dir es0) := by
            rw [lookupEntry_append_of_none _ hlook]
            simp [lookupEntry]
          rw [List.cons_append, List.nil_append, Node.set_dir_cons_some [name] x h1,
            Node.set_dir_cons_none_nil x hnew, Node.set_dir_cons_none_nil _ hlook]
          simp [replaceEntry_append_of_none _ _ hlook, replaceEntry]
        | cons d r => simp [Node.set_dir_cons_none_cons d r _ hlook] at hset

/-- Creating a new sub-directory of an existing directory with `MkdirAll`. -/
theorem Node.mkdirAll_child {fs : Node} {p : Path} {es0 : List (String × Node)} {name : String}
    (hget : fs.get p = some (.dir es0)) (hnew : lookupEntry name es0 = none) :
    fs.mkdirAll (p ++ [name]) = fs.set (p ++ [name]) (.dir []) := by
  induction p generalizing fs with
  | nil =>
    rw [Node.get_nil] at hget
    cases hget
    simp [Node.mkdirAll_dir_cons_none [] hnew, Node.set_dir_cons_none_nil _ hnew,
      Node.mkdirAll_dir_nil]
  | cons c rest ih =>
    cases fs with
    | file d => simp [Node.get_file_cons] at hget
    | dir es =>
      rw [Node.get_dir_cons] at hget
      cases hlook : lookupEntry c es with
      | none => simp [hlook] at hget
      | some m =>
        rw [hlook] at hget
        rw [List.cons_append, Node.mkdirAll_dir_cons_some _ hlook,
          Node.set_dir_cons_some _ _ hlook, ih hget]

/-- What `MkdirAll` leaves at a path that was not there: an empty directory. -/
theorem Node.mkdirAll_fresh {fs fs1 : Node} {p : Path} (hnone : fs.get p = none)
    (hmk : fs.mkdirAll p = some fs1) : fs1.get p = some (.dir []) := by
  induction p generalizing fs fs1 with
  | nil => simp [Node.get_nil] at hnone
  | cons c rest ih =>
    cases fs with
    | file d => simp [Node.mkdirAll_file] at hmk
    | dir es =>
      cases hlook : lookupEntry c es with
      | some n =>
        rw [Node.mkdirAll_dir_cons_some rest hlook] at hmk
        simp only [Option.map_eq_some'] at hmk
        obtain ⟨m, hm, rfl⟩ := hmk
        rw [Node.get_dir_cons, hlook] at hnone
        rw [Node.get_dir_cons, lookupEntry_replaceEntry_self m hlook]
        exact ih hnone hm
      | none =>
        rw [Node.mkdirAll_dir_cons_none rest hlook] at hmk
        simp only [Option.map_eq_some'] at hmk
        obtain ⟨m, hm, rfl⟩ := hmk
        rw [Node.get_dir_cons, lookupEntry_append_of_none _ hlook]
        simp only [lookupEntry, if_true, Option.some_bind]
        cases rest with
        | nil =>
          rw [Node.mkdirAll_dir_nil] at hm
          cases hm
          exact Node.get_nil _
        | cons a b => exact ih (Node.get_dir_nil_cons a b) hm

/-- The call `MkdirAll` succeeds when the path does not run into a file. -/
theorem Node.mkdirAll_of_no_file {fs : Node} {p : Path}
    (hno : ∀ q, q <+: p → ∀ data, fs.get q ≠ some (.file data)) :
    ∃ fs1, fs.mkdirAll p = some fs1 := by
  induction p generalizing fs with
  | nil =>
    cases fs with
    | file d => exact absurd (Node.get_nil _) (hno [] List.nil_prefix d)
    | dir es => exact ⟨_, Node.mkdirAll_dir_nil es⟩
  | cons c rest ih =>
    cases fs with
    | file d => exact absurd (Node.get_nil _) (hno [] List.nil_prefix d)
    | dir es =>
      cases hlook : lookupEntry c es with
      | some n =>
        have hn : ∀ q, q <+: rest → ∀ data, n.get q ≠ some (.file data) := by
          intro q hq data
          have := hno (c :: q) ((List.prefix_cons_inj c).2 hq) data
          simpa [Node.get_dir_cons, hlook] using this
        obtain ⟨m, hm⟩ := ih hn
        exact ⟨_, by rw [Node.mkdirAll_dir_cons_some rest hlook, hm]; rfl⟩
      | none =>
        have hn : ∀ q, q <+: rest → ∀ data, (Node.dir []).get q ≠ some (.file data) := by
          intro q hq data
          cases q with
          | nil => simp [Node.get_nil]
          | cons a b => simp [Node.get_dir_nil_cons]
        obtain ⟨m, hm⟩ := ih hn
        exact ⟨_, by rw [Node.mkdirAll_dir_cons_none rest hlook, hm]; rfl⟩

/-! ### Path strings -/

theorem splitSlash_ne_nil (l : List Char) : splitSlash l ≠ [] := by
  cases l with
  | nil => simp [splitSlash]
  | cons c cs =>
    unfold splitSlash
    by_cases hc : c = '/'
    · simp [hc]
    · simp only [hc, if_false]
      cases splitSlash cs <;> simp

theorem splitSlash_append_slash (a b : List Char) :
    splitSlash (a ++ '/' :: b) = splitSlash a ++ splitSlash b := by
  induction a with
  | nil => simp [splitSlash]
  | cons c cs ih =>
    simp only [List.cons_append]
    rw [splitSlash, splitSlash, ih]
    by_cases hc : c = '/'
    · simp [hc]
    · simp only [hc, if_false]
      cases hsp : splitSlash cs with
      | nil => exact absurd hsp (splitSlash_ne_nil cs)
      | cons h t => simp

theorem splitSlash_of_no_slash (n : List Char) (h : '/' ∉ n) : splitSlash n = [n] := by
  induction n with
  | nil => rfl
  | cons c cs ih =>
    have hc : ¬ c = '/' := fun hc => h (hc ▸ List.mem_cons_self _ _)
    have hcs : '/' ∉ cs := fun hm => h (List.mem_cons_of_mem _ hm)
    rw [splitSlash]
    simp [hc, ih hcs]

theorem validName_spec {n : String} (h : validName n = true) :
    n ≠ "" ∧ n ≠ "." ∧ n ≠ ".." ∧ '/' ∉ n.data := by
  simpa [validName] using h

theorem pathJoin_data (s n : String) : (pathJoin s n).data = s.data ++ '/' :: n.data := by
  have h : ("/" : String).data = ['/'] := by decide
  simp [pathJoin, String.data_append, h]

theorem pathJoin_ne_empty (s n : String) : pathJoin s n ≠ "" := by
  intro h
  have := congrArg String.data h
  rw [pathJoin_data] at this
  have h0 : ("" : String).data = [] := rfl
  rw [h0] at this
  simp at this

/-- Joining a directory path and an entry name leads to that entry of the
directory. -/
theorem components_pathJoin (s : String) {n : String} (hn : validName n = true) :
    components (pathJoin s n) = components s ++ [n] := by
  obtain ⟨h1, h2, h3, h4⟩ := validName_spec hn
  unfold components
  rw [pathJoin_data, splitSlash_append_slash, splitSlash_of_no_slash _ h4]
  simp only [List.map_append, List.map_cons, List.map_nil, List.foldl_append, List.foldl_cons,
    List.foldl_nil]
  have hmk : String.mk n.data = n := rfl
  rw [hmk]
  simp [pathStep, h1, h2, h3]

theorem resolve_of_ne {s : String} (h : s ≠ "") : resolve s = some (components s) := by
  simp [resolve, h]

theorem resolve_pathJoin (s : String) {n : String} (hn : validName n = true) :
    resolve (pathJoin s n) = some (components s ++ [n]) := by
  rw [resolve_of_ne (pathJoin_ne_empty s n), components_pathJoin s hn]

/-! ### The calls when they succeed -/

theorem osStat_of_get {path : String} {p : Path} {w : World} {n : Node}
    (hr : resolve path = some p) (hget : w.fs.get p = some n) :
    osStat path w = (.ok n, w.emit (.stat path)) := by
  simp [osStat, hr, hget]

theorem osMkdirAll_of {path : String} {p : Path} {w : World} {fs1 : Node}
    (hr : resolve path = some p) (hmk : w.fs.mkdirAll p = some fs1) :
    osMkdirAll path w = (none, { fs := fs1, trace := w.trace ++ [.mkdirAll path] }) := by
  simp [osMkdirAll, hr, hmk]

theorem ioutilReadDir_of {path : String} {p : Path} {w : World} {es : List (String × Node)}
    (hr : resolve path = some p) (hget : w.fs.get p = some (.dir es)) :
    ioutilReadDir path w = (.ok (es.map (fun e => (e.1, e.2.isDir))), w.emit (.readDir path)) := by
  simp [ioutilReadDir, hr, hget]

theorem ioutilReadFile_of {path : String} {p : Path} {w : World} {data : List UInt8}
    (hr : resolve path = some p) (hget : w.fs.get p = some (.file data)) :
    ioutilReadFile path w = (.ok data, w.emit (.readFile path)) := by
  simp [ioutilReadFile, hr, hget]

theorem Node.writeFile_of_none {fs fs1 : Node} {p : Path} {data : List UInt8}
    (hnone : fs.get p = none) (hset : fs.set p (.file data) = some fs1) :
    fs.writeFile p data = .ok fs1 := by
  simp [Node.writeFile, hnone, hset]

theorem ioutilWriteFile_of {path : String} {p : Path} {w : World} {data : List UInt8}
    {fs1 : Node} (hr : resolve path = some p) (hw : w.fs.writeFile p data = .ok fs1) :
    ioutilWriteFile path data w =
      (none, { fs := fs1, trace := w.trace ++ [.writeFile path data] }) := by
  simp [ioutilWriteFile, hr, hw]

/-! ### Well-formed trees -/

theorem Node.height_dir (es : List (String × Node)) :
    (Node.dir es).height = heightEntries es + 1 := by
  simp [Node.height]

theorem heightEntries_cons (name : String) (n : Node) (rest : List (String × Node)) :
    heightEntries ((name, n) :: rest) = max n.height (heightEntries rest) := by
  simp [heightEntries]

theorem height_le_of_mem {name : String} {c : Node} {es : List (String × Node)}
    (h : (name, c) ∈ es) : c.height ≤ heightEntries es := by
  induction es with
  | nil => simp at h
  | cons e rest ih =>
    obtain ⟨a, b⟩ := e
    rw [heightEntries_cons]
    rcases List.mem_cons.1 h with h1 | h1
    · cases h1
      exact le_max_left _ _
    · exact le_trans (ih h1) (le_max_right _ _)

theorem Node.wellFormed_dir (es : List (String × Node)) :
    (Node.dir es).wellFormed = entriesWellFormed es := by
  simp [Node.wellFormed]

theorem entriesWellFormed_cons (name : String) (n : Node) (rest : List (String × Node)) :
    entriesWellFormed ((name, n) :: rest) =
      (validName name && decide (name ∉ rest.map Prod.fst) && n.wellFormed &&
        entriesWellFormed rest) := by
  simp [entriesWellFormed]

theorem entriesWellFormed_mem {es : List (String × Node)} (hwf : entriesWellFormed es = true)
    {name : String} {c : Node} (h : (name, c) ∈ es) :
    validName name = true ∧ c.wellFormed = true := by
  induction es with
  | nil => simp at h
  | cons e rest ih =>
    obtain ⟨a, b⟩ := e
    rw [entriesWellFormed_cons] at hwf
    simp only [Bool.and_eq_true] at hwf
    rcases List.mem_cons.1 h with h1 | h1
    · cases h1
      exact ⟨hwf.1.1.1, hwf.1.2⟩
    · exact ih hwf.2 h1

theorem entriesWellFormed_nodup {es : List (String × Node)}
    (hwf : entriesWellFormed es = true) : (es.map Prod.fst).Nodup := by
  induction es with
  | nil => simp
  | cons e rest ih =>
    obtain ⟨a, b⟩ := e
    rw [entriesWellFormed_cons] at hwf
    simp only [Bool.and_eq_true, decide_eq_true_eq] at hwf
    simp only [List.map_cons, List.nodup_cons]
    exact ⟨hwf.1.1.2, ih hwf.2⟩

theorem lookupEntry_of_not_mem {name : String} {l : List (String × Node)}
    (h : name ∉ l.map Prod.fst) : lookupEntry name l = none := by
  induction l with
  | nil => rfl
  | cons e rest ih =>
    obtain ⟨a, b⟩ := e
    simp only [List.map_cons, List.mem_cons, not_or] at h
    have ha : ¬ a = name := fun hh => h.1 hh.symm
    simp only [lookupEntry, ha, if_false]
    exact ih h.2

/-- In a well-formed directory, the entry at the head of what is still to do
is found under its name, and its name is not among the entries done. -/
theorem entry_facts {es done rest : List (String × Node)} {name : String} {c : Node}
    (hwf : entriesWellFormed es = true) (hes : es = done ++ (name, c) :: rest) :
    validName name = true ∧ c.wellFormed = true ∧ lookupEntry name done = none ∧
      lookupEntry name es = some c ∧ c.height ≤ heightEntries es := by
  have hmem : (name, c) ∈ es := by rw [hes]; simp
  obtain ⟨hv, hc⟩ := entriesWellFormed_mem hwf hmem
  have hnd := entriesWellFormed_nodup hwf
  rw [hes] at hnd
  simp only [List.map_append, List.map_cons] at hnd
  have hnot : name ∉ done.map Prod.fst := by
    intro hin
    have := (List.nodup_append.1 hnd).2.2 hin (List.mem_cons_self _ _)
    exact this
  have hdone := lookupEntry_of_not_mem hnot
  refine ⟨hv, hc, hdone, ?_, height_le_of_mem hmem⟩
  rw [hes, lookupEntry_append_of_none _ hdone]
  simp [lookupEntry]

/-- Whether an update at a path succeeds does not depend on what is put. -/
theorem Node.set_other {fs fs1 : Node} {p : Path} {x : Node} (y : Node)
    (hset : fs.set p x = some fs1) : ∃ fs2, fs.set p y = some fs2 := by
  obtain ⟨fs2, h2⟩ := Node.set_of_get y (Node.get_set_self hset)
  exact ⟨fs2, by rw [← Node.set_set_same y hset, h2]⟩

/-! ### The copy -/

/-- Putting at a path what is already there changes nothing. -/
theorem Node.set_get_same {fs x : Node} {p : Path} (hget : fs.get p = some x) :
    fs.set p x = some fs := by
  induction p generalizing fs with
  | nil =>
    rw [Node.get_nil] at hget
    cases hget
    exact Node.set_nil _ _
  | cons c rest ih =>
    cases fs with
    | file d => simp [Node.get_file_cons] at hget
    | dir es =>
      rw [Node.get_dir_cons] at hget
      cases hlook : lookupEntry c es with
      | none => simp [hlook] at hget
      | some m =>
        rw [hlook] at hget
        rw [Node.set_dir_cons_some rest x hlook, ih hget]
        simp [replaceEntry_same hlook]

theorem copyDirectory_succ (fuel : Nat) (s d : String) (w : World) :
    copyDirectory (fuel + 1) s d w =
      match osStat s w with
      | (.error err, w1) => (.ret (some err), w1)
      | (.ok _, w1) =>
        match osMkdirAll d w1 with
        | (some err, w2) => (.ret (some err), w2)
        | (none, w2) =>
          match ioutilReadDir s w2 with
          | (.error err, w3) => (.ret (some err), w3)
          | (.ok fileDescriptors, w3) =>
            copyEntries (copyDirectory fuel) s d fileDescriptors w3 := rfl

theorem copyEntries_cons
    (recurse : String → String → World → Outcome (Option GoError) × World) (s d : String)
    (e : String × Bool) (rest : List (String × Bool)) (w : World) :
    copyEntries recurse s d (e :: rest) w =
      if e.2 then
        match recurse (pathJoin s e.1) (pathJoin d e.1) w with
        | (.ret none, w1) => copyEntries recurse s d rest w1
        | (.ret (some err), w1) => (.fatal, logFatalln .Error [.err err] w1)
        | (.fatal, w1) => (.fatal, w1)
        | (.unfinished, w1) => (.unfinished, w1)
      else
        match copyFile (pathJoin s e.1) (pathJoin d e.1) w with
        | (.ret none, w1) => copyEntries recurse s d rest w1
        | (.ret (some err), w1) => (.fatal, logFatalln .Error [.err err] w1)
        | (.fatal, w1) => (.fatal, w1)
        | (.unfinished, w1) => (.unfinished, w1) := rfl

/-- The loop of the copy: with the entries `done` already at the destination,
the entries `todo` are added one by one. -/
theorem copyEntries_copies {k : Nat} (ih : CopiesAtDepth k) (s d : String)
    (es : List (String × Node)) (fs1 : Node)
    (hwf : entriesWellFormed es = true) (hheight : heightEntries es ≤ k)
    (hsrc : fs1.get (components s) = some (.dir es))
    (hapart : Apart (components s) (components d)) :
    ∀ (todo done : List (String × Node)) (w : World),
      es = done ++ todo → fs1.set (components d) (.dir done) = some w.fs →
      ∃ w1, copyEntries (copyDirectory k) s d (todo.map (fun e => (e.1, e.2.isDir))) w =
          (.ret none, w1) ∧
        fs1.set (components d) (.dir es) = some w1.fs := by
  intro todo
  induction todo with
  | nil =>
    intro done w hes hset
    refine ⟨w, rfl, ?_⟩
    rw [hes]
    simpa using hset
  | cons e rest ihl =>
    intro done w hes hset
    obtain ⟨name, c⟩ := e
    obtain ⟨hv, hc, hdone, hlook, hh⟩ := entry_facts hwf hes
    have hsrcw : w.fs.get (components s) = some (.dir es) := by
      rw [Node.get_set_apart hset hapart.swap]
      exact hsrc
    have hchild : w.fs.get (components s ++ [name]) = some c := by
      rw [Node.get_append, hsrcw]
      simp [Node.get_dir_cons, hlook, Node.get_nil]
    have hdst : w.fs.get (components d) = some (.dir done) := Node.get_set_self hset
    have hdchild : w.fs.get (components d ++ [name]) = none := by
      rw [Node.get_append, hdst]
      simp [Node.get_dir_cons, hdone]
    have hes1 : es = (done ++ [(name, c)]) ++ rest := by
      rw [hes]
      simp
    rw [List.map_cons, copyEntries_cons]
    cases c with
    | file data =>
      simp only [Node.isDir, Bool.false_eq_true, if_false]
      obtain ⟨fs2, hfs2⟩ := Node.set_other (.dir (done ++ [(name, Node.file data)])) hset
      have hset2 : w.fs.set (components d ++ [name]) (.file data) = some fs2 := by
        rw [Node.set_set_child (.file data) hset hdone, hfs2]
      have hcopy : copyFile (pathJoin s name) (pathJoin d name) w =
          (.ret none, { fs := fs2, trace := w.trace ++
            [.readFile (pathJoin s name), .writeFile (pathJoin d name) data] }) := by
        unfold copyFile
        rw [ioutilReadFile_of (resolve_pathJoin s hv) hchild]
        simp only
        rw [ioutilWriteFile_of (resolve_pathJoin d hv)
          (Node.writeFile_of_none (by simpa using hdchild) (by simpa using hset2))]
        simp [World.emit]
      rw [hcopy]
      exact ihl (done ++ [(name, .file data)]) _ hes1 hfs2
    | dir esc =>
      simp only [Node.isDir, if_true]
      obtain ⟨fsm, hfsm⟩ := Node.set_other (.dir (done ++ [(name, Node.dir [])])) hset
      have hmkset : w.fs.set (components d ++ [name]) (.dir []) = some fsm := by
        rw [Node.set_set_child (.dir []) hset hdone, hfsm]
      have hmk : w.fs.mkdirAll (components d ++ [name]) = some fsm := by
        rw [Node.mkdirAll_child hdst hdone, hmkset]
      have hfresh : fsm.get (components d ++ [name]) = some (.dir []) :=
        Node.get_set_self hmkset
      obtain ⟨w1, hrun, hw1⟩ := ih esc (pathJoin s name) (pathJoin d name) w fsm
        (pathJoin_ne_empty _ _) (pathJoin_ne_empty _ _)
        (le_trans hh hheight)
        (by rw [← Node.wellFormed_dir]; exact hc)
        (by rw [components_pathJoin s hv]; exact hchild)
        (by rw [components_pathJoin d hv]; exact hmk)
        (by rw [components_pathJoin d hv]; exact hfresh)
        (by rw [components_pathJoin s hv, components_pathJoin d hv]; exact hapart.snoc_snoc name)
      rw [hrun]
      apply ihl (done ++ [(name, .dir esc)]) w1 hes1
      rw [components_pathJoin d hv, Node.set_set_same _ hmkset,
        Node.set_set_child _ hset hdone] at hw1
      exact hw1

theorem copiesAtDepth (k : Nat) : CopiesAtDepth k := by
  induction k with
  | zero =>
    intro es s d w fs1 _ _ hh
    rw [Node.height_dir] at hh
    omega
  | succ k ih =>
    intro es s d w fs1 hs hd hh hwf hsrc hmk hfresh hapart
    rw [Node.height_dir] at hh
    have hsrc1 : fs1.get (components s) = some (.dir es) := by
      rw [Node.get_mkdirAll_apart hmk hapart.swap]
      exact hsrc
    rw [copyDirectory_succ, osStat_of_get (resolve_of_ne hs) hsrc]
    simp only
    rw [osMkdirAll_of (resolve_of_ne hd) (by simpa using hmk)]
    simp only
    rw [ioutilReadDir_of (resolve_of_ne hs) (by simpa using hsrc1)]
    simp only
    exact copyEntries_copies ih s d es fs1 hwf (by omega) hsrc1 hapart es [] _ rfl
      (by simpa using Node.set_get_same hfresh)

theorem noFileOnTheWay_spec {fs : Node} {p : Path} (h : noFileOnTheWay fs p = true) :
    ∀ q, q <+: p → ∀ data, fs.get q ≠ some (.file data) := by
  intro q hq data hget
  unfold noFileOnTheWay at h
  rw [List.all_eq_true] at h
  have := h q ((List.mem_inits _ _).2 hq)
  simp [hget] at this

/-- C6: let the source path lead to a directory whose tree is well formed
(entry names are file names, none twice in a directory), let the destination
not exist, with no file on the way to it, and not lie inside the source.
Then with fuel at least the height of the source tree `copyDirectory` returns
`nil`, and afterwards every relative path leads below the destination to
exactly what it leads to below the source: the same files with the same
bytes, the same directories, and nothing else.  The destination holds the
source tree itself, and whatever lies apart from the destination, the source
included, is as it was. -/
theorem copyDirectory_reproduces_tree (s d : String) (w : World)
    (es : List (String × Node)) (fuel : Nat)
    (hs : s ≠ "") (hd : d ≠ "")
    (hsrc : w.fs.get (components s) = some (.dir es))
    (hwf : entriesWellFormed es = true)
    (hfresh : w.fs.get (components d) = none)
    (hnofile : noFileOnTheWay w.fs (components d) = true)
    (hout : ¬ components s <+: components d)
    (hfuel : (Node.dir es).height ≤ fuel) :
    ∃ w1, copyDirectory fuel s d w = (.ret none, w1) ∧
      (∀ r, w1.fs.get (components d ++ r) = w.fs.get (components s ++ r)) ∧
      w1.fs.get (components d) = some (.dir es) ∧
      (∀ q, Apart (components d) q → w1.fs.get q = w.fs.get q) := by
  have hapart : Apart (components s) (components d) := by
    refine ⟨hout, fun hds => ?_⟩
    obtain ⟨r, hr⟩ := hds
    rw [← hr, Node.get_append, hfresh] at hsrc
    simp at hsrc
  obtain ⟨fs1, hmk⟩ := Node.mkdirAll_of_no_file (noFileOnTheWay_spec hnofile)
  obtain ⟨w1, hrun, hset⟩ := copiesAtDepth fuel es s d w fs1 hs hd hfuel hwf hsrc hmk
    (Node.mkdirAll_fresh hfresh hmk) hapart
  have hdst : w1.fs.get (components d) = some (.dir es) := Node.get_set_self hset
  refine ⟨w1, hrun, ?_, hdst, ?_⟩
  · intro r
    rw [Node.get_append, hdst, Node.get_append, hsrc]
  · intro q hq
    rw [Node.get_set_apart hset hq, Node.get_mkdirAll_apart hmk hq]

set_option maxRecDepth 100000 in
theorem copyDirectory_reproduces_tree_witness :
    liveWorld.fs.get ["dst", "metadata"] = none ∧
    ∃ w1, copyDirectory 2 "/src/metadata" "/dst/metadata" liveWorld = (.ret none, w1) ∧
      (∀ r, w1.fs.get (components "/dst/metadata" ++ r) =
        liveWorld.fs.get (components "/src/metadata" ++ r)) ∧
      w1.fs.get (components "/dst/metadata") =
        some (.dir [("analytics", .dir [("events.sql", .file [7])])]) ∧
      (∀ q, Apart (components "/dst/metadata") q → w1.fs.get q = liveWorld.fs.get q) :=
  ⟨rfl, copyDirectory_reproduces_tree "/src/metadata" "/dst/metadata" liveWorld
    [("analytics", .dir [("events.sql", .file [7])])] 2
    (by decide) (by decide) rfl rfl rfl rfl (by decide) (by decide)⟩

/-! ### Failures of the copy -/

/-- Creating a sub-directory that is not there, in a directory that is. -/
theorem Node.mkdir_child {fs : Node} {p : Path} {es0 : List (String × Node)} {name : String}
    (hget : fs.get p = some (.dir es0)) (hnew : lookupEntry name es0 = none) :
    ∃ fs1, fs.mkdir (p ++ [name]) = .ok fs1 ∧ fs.set (p ++ [name]) (.dir []) = some fs1 := by
  have hnone : fs.get (p ++ [name]) = none := by
    rw [Node.get_append, hget]
    simp [Node.get_dir_cons, hnew]
  obtain ⟨fs1, hfs1⟩ := Node.set_of_get (.dir (es0 ++ [(name, Node.dir [])])) hget
  have hset : fs.set (p ++ [name]) (.dir []) = some fs1 := by
    rw [Node.set_set_child (.dir []) (Node.set_get_same hget) hnew, hfs1]
  exact ⟨fs1, by simp [Node.mkdir, hnone, hset], hset⟩

theorem osMkdir_child {path : String} {p : Path} {name : String} (w : World)
    {es0 : List (String × Node)} (hr : resolve path = some (p ++ [name]))
    (hget : w.fs.get p = some (.dir es0)) (hnew : lookupEntry name es0 = none) :
    ∃ fs1, osMkdir path w = (none, { fs := fs1, trace := w.trace ++ [.mkdir path] }) ∧
      w.fs.set (p ++ [name]) (.dir []) = some fs1 := by
  obtain ⟨fs1, hmk, hset⟩ := Node.mkdir_child hget hnew
  exact ⟨fs1, by simp [osMkdir, hr, hmk], hset⟩

theorem append_slash_name (out : String) (name : String) :
    out ++ ("/" ++ name) = pathJoin out name := by
  simp [pathJoin, String.append_assoc]

theorem partitions_path (out : String) : out ++ "/partitions" = pathJoin out "partitions" :=
  append_slash_name out "partitions"

theorem metadata_path (out : String) : out ++ "/metadata" = pathJoin out "metadata" :=
  append_slash_name out "metadata"

theorem partitions_database_path (out db : String) :
    out ++ "/partitions/" ++ db = pathJoin (pathJoin out "partitions") db := by
  have h : ("/partitions/" : String) = "/" ++ "partitions" ++ "/" := by decide
  simp [pathJoin, h, String.append_assoc]

theorem metadata_database_path (out db : String) :
    out ++ "/metadata/" ++ db = pathJoin (pathJoin out "metadata") db := by
  have h : ("/metadata/" : String) = "/" ++ "metadata" ++ "/" := by decide
  simp [pathJoin, h, String.append_assoc]

/-- A directory with a name under the root `out`, when the root is a directory
that has no entry of that name yet, and then the directory of the database in
it: both are created. -/
theorem createDirectories_pair (out name db : String) (rest : List String) (w : World)
    (es : List (String × Node)) (hname : validName name = true) (hdb : validName db = true)
    (hroot : w.fs.get (components out) = some (.dir es))
    (hnew : lookupEntry name es = none) :
    ∃ fs2, createDirectories (pathJoin out name :: pathJoin (pathJoin out name) db :: rest) w =
        createDirectories rest
          { fs := fs2,
            trace := w.trace ++ [.mkdir (pathJoin out name),
              .mkdir (pathJoin (pathJoin out name) db)] } ∧
      (∀ q, Apart (components out ++ [name]) q → fs2.get q = w.fs.get q) ∧
      ∃ es2, fs2.get (components out) = some (.dir es2) := by
  obtain ⟨fs1, h1, hset1⟩ := osMkdir_child w (resolve_pathJoin out hname) hroot hnew
  have hget1 : fs1.get (components out ++ [name]) = some (.dir []) := Node.get_set_self hset1
  have hr2 : resolve (pathJoin (pathJoin out name) db) =
      some ((components out ++ [name]) ++ [db]) := by
    rw [resolve_pathJoin _ hdb, components_pathJoin out hname]
  obtain ⟨fs2, h2, hset2⟩ := osMkdir_child
    { fs := fs1, trace := w.trace ++ [.mkdir (pathJoin out name)] } hr2 hget1 rfl
  refine ⟨fs2, ?_, ?_, ?_⟩
  · rw [createDirectories_cons, h1]
    simp only
    rw [createDirectories_cons, h2]
    simp
  · intro q hq
    have hq2 : Apart ((components out ++ [name]) ++ [db]) q := by
      refine ⟨fun h => hq.1 ((List.prefix_append _ _).trans h), fun h => ?_⟩
      rcases List.prefix_concat_iff.1 h with h1 | h1
      · exact hq.1 (by rw [h1]; exact List.prefix_append _ _)
      · exact hq.2 h1
    rw [Node.get_set_apart hset2 hq2, Node.get_set_apart hset1 hq]
  · have hk1 : Keeps w.fs fs1 := Node.set_keeps (by
      rw [Node.get_append, hroot]; simp [Node.get_dir_cons, hnew]) hset1
    have hk2 : Keeps fs1 fs2 := Node.set_keeps (by
      rw [Node.get_append, hget1]; simp [Node.get_dir_cons, lookupEntry]) hset2
    exact ((hk1.andThen hk2) (components out)).2 es hroot

theorem apart_of_names_ne (p : Path) {a b : String} (hab : a ≠ b) :
    Apart (p ++ [a]) (p ++ [b]) := by
  constructor
  · intro h
    rcases List.prefix_concat_iff.1 h with h1 | h1
    · exact hab (by simpa using h1)
    · have := h1.length_le
      simp at this
  · intro h
    rcases List.prefix_concat_iff.1 h with h1 | h1
    · exact hab (by simpa using h1.symm)
    · have := h1.length_le
      simp at this

/-- From a root directory in which neither `partitions` nor `metadata` exists,
and for a database whose name is a file name, the four directory creations of
`FreezePartitions.Run` succeed. -/
theorem createDirectories_fresh_skeleton (out : String) (p : partitionDescribe) (w : World)
    (es : List (String × Node)) (hdb : validName p.databaseName = true)
    (hroot : w.fs.get (components out) = some (.dir es))
    (hnoPartitions : lookupEntry "partitions" es = none)
    (hnoMetadata : lookupEntry "metadata" es = none) :
    (createDirectories (directoryList out p) w).1.1 = none := by
  have hlist : directoryList out p =
      [ pathJoin out "partitions", pathJoin (pathJoin out "partitions") p.databaseName,
        pathJoin out "metadata", pathJoin (pathJoin out "metadata") p.databaseName ] := by
    simp only [directoryList, partitions_path, metadata_path, partitions_database_path,
      metadata_database_path]
  obtain ⟨fs2, hrun1, hframe, es2, hroot2⟩ := createDirectories_pair out "partitions"
    p.databaseName
    [pathJoin out "metadata", pathJoin (pathJoin out "metadata") p.databaseName] w es
    (by decide) hdb hroot hnoPartitions
  have hnone : fs2.get (components out ++ ["metadata"]) = none := by
    rw [hframe _ (apart_of_names_ne (components out) (by decide)), Node.get_append, hroot]
    simp [Node.get_dir_cons, hnoMetadata]
  have hnoMetadata2 : lookupEntry "metadata" es2 = none := by
    rw [Node.get_append, hroot2] at hnone
    cases hl : lookupEntry "metadata" es2 with
    | none => rfl
    | some n => simp [Node.get_dir_cons, hl, Node.get_nil] at hnone
  obtain ⟨fs4, hrun2, _, _⟩ := createDirectories_pair out "metadata" p.databaseName []
    { fs := fs2,
      trace := w.trace ++ [.mkdir (pathJoin out "partitions"),
        .mkdir (pathJoin (pathJoin out "partitions") p.databaseName)] }
    es2 (by decide) hdb hroot2 hnoMetadata2
  rw [hlist, hrun1, hrun2]
  rfl

/-! ### Which failures are returned -/

/-- Both copies of a partition returned `nil`: the loop goes on with the
next partition. -/
theorem freezeEach_both_copies (g : Globals) (hg : g.NoFreezeFlag = false) (conn : Conn)
    (fuel : Nat) (p : partitionDescribe) (rest : List partitionDescribe) (w w2 w3 w4 : World)
    (name : String)
    (hexec : conn.exec w.trace (freezeStatement p) = none)
    (hmk : createDirectories (directoryList g.SourceDirectory p)
      (w.emit (.exec (freezeStatement p))) = ((none, name), w2))
    (hcopy1 : copyDirectory fuel (g.DestinationDirectory ++ "/shadow/1/data/" ++ p.databaseName)
      (g.SourceDirectory ++ "/partitions/" ++ p.databaseName) w2 = (.ret none, w3))
    (hcopy2 : copyDirectory fuel (g.DestinationDirectory ++ "/metadata/" ++ p.databaseName)
      (g.SourceDirectory ++ "/metadata/" ++ p.databaseName) w3 = (.ret none, w4)) :
    freezeEach g conn fuel (p :: rest) w = freezeEach g conn fuel rest w4 := by
  have hone : freezeOne g conn fuel p w = (.ret none, w4) := by
    unfold freezeOne
    simp only [hg, dbExec, hexec, Bool.false_eq_true, if_false, hmk, hcopy1, hcopy2]
  rw [freezeEach_cons, hone]

end ClickhouseDump
